import Mathlib

/-!
# Verification of the Pinocchio skeleton compression and intersector core

This file gives a shallow embedding of `src/Pinocchio/skeleton.cpp` and of the
ray/mesh intersection query declared in `src/Pinocchio/intersector.h`, and
proves the specification claims about them.

Modelling conventions:
* C++ `double` becomes `ℝ`; `std::vector` becomes `List`, indexed with `getD`
  (out-of-range access is undefined behaviour in the source; `getD` supplies an
  arbitrary default which the theorems' well-formedness hypotheses make
  unreachable).
* `std::map<string,int>` becomes an association list; `operator[]` used as an
  rvalue is `mapGetOrInsert` (default-inserts `0` for a missing key, exactly as
  in C++), and used as an lvalue is `mapSet` (insert-or-assign).
* `while`/`do-while` loops that walk up the parent chain become fuel-bounded
  recursions; the fuel (number of joints) is sufficient because parent indices
  strictly decrease, which is a hypothesis of every theorem that touches them.
-/

namespace Pinocchio

/-- 3D vector with real coordinates, mirroring `PVector3` (doubles in C++). -/
structure PVector3 where
  x : ℝ
  y : ℝ
  z : ℝ

instance : Inhabited PVector3 := ⟨⟨0, 0, 0⟩⟩

/-- Componentwise scalar multiplication, mirroring `PVector3 * double`. -/
noncomputable def PVector3.smul (p : PVector3) (c : ℝ) : PVector3 :=
  ⟨p.x * c, p.y * c, p.z * c⟩

/-- Componentwise subtraction, mirroring `PVector3 - PVector3`. -/
noncomputable def PVector3.sub (p q : PVector3) : PVector3 :=
  ⟨p.x - q.x, p.y - q.y, p.z - q.z⟩

/-- Euclidean norm, mirroring `PVector3::length()`. -/
noncomputable def PVector3.len (p : PVector3) : ℝ :=
  Real.sqrt (p.x ^ 2 + p.y ^ 2 + p.z ^ 2)

/-- Resize a list to length `n`, padding with `d`, mirroring `vector::resize(n, d)`. -/
def listResize {α : Type} (l : List α) (n : Nat) (d : α) : List α :=
  if n ≤ l.length then l.take n else l ++ List.replicate (n - l.length) d

/-- Append `v` to the inner list at index `i`, mirroring `l[i].push_back(v)`. -/
def pushAt (l : List (List Int)) (i : Nat) (v : Int) : List (List Int) :=
  l.set i (l.getD i [] ++ [v])

/-- Association-list lookup for the `jointNames` map. -/
def mapFind (m : List (String × Int)) (k : String) : Option Int :=
  match m with
  | [] => none
  | (k1, v) :: t => if k1 = k then some v else mapFind t k

/-- `std::map::operator[]` as an rvalue: returns the stored value, or
default-inserts `0` for a missing key (this silent insertion is exactly the
C++ behaviour that the error-handling claims are about). -/
def mapGetOrInsert (m : List (String × Int)) (k : String) : Int × List (String × Int) :=
  match mapFind m k with
  | some v => (v, m)
  | none => (0, m ++ [(k, 0)])

/-- `std::map::operator[] = v`: insert-or-assign. -/
def mapSet (m : List (String × Int)) (k : String) (v : Int) : List (String × Int) :=
  match m with
  | [] => [(k, v)]
  | (k1, v1) :: t => if k1 = k then (k, v) :: t else (k1, v1) :: mapSet t k v

/-- The full skeleton state of class `Skeleton`: full graph (`fGraphV`),
parent/symmetry arrays, the name registry, and the compressed-skeleton data
filled in by `initCompressed`. -/
@[ext]
structure Skeleton where
  fGraphVerts : List PVector3
  fGraphEdges : List (List Int)
  fPrevV : List Int
  fSymV : List Int
  jointNames : List (String × Int)
  cGraphVerts : List PVector3
  cGraphEdges : List (List Int)
  cPrevV : List Int
  cSymV : List Int
  fcMapV : List Int
  cfMapV : List Int
  cLengthV : List ℝ
  fcFractionV : List ℝ
  cFeetV : List Bool
  cFatV : List Bool

/-- The default-constructed skeleton: every container empty. -/
def emptySkeleton : Skeleton :=
  ⟨[], [], [], [], [], [], [], [], [], [], [], [], [], [], []⟩

/-- `Skeleton::makeJoint(name, pos, previous)` (skeleton.cpp lines 96-112).
Stores `pos * 0.5`, registers the name, and attaches a bone to the joint named
`previous` unless `previous` is empty. -/
noncomputable def makeJoint (s : Skeleton) (name : String) (pos : PVector3)
    (previous : String) : Skeleton :=
  let cur : Nat := s.fSymV.length
  let fSym1 := s.fSymV ++ [-1]
  let verts1 := s.fGraphVerts ++ [pos.smul 0.5]
  let edges1 := listResize s.fGraphEdges (cur + 1) []
  let names1 := mapSet s.jointNames name (Int.ofNat cur)
  if previous = "" then
    { s with fSymV := fSym1, fGraphVerts := verts1, fGraphEdges := edges1,
             jointNames := names1, fPrevV := s.fPrevV ++ [-1] }
  else
    let pr := mapGetOrInsert names1 previous
    let edges2 := pushAt (pushAt edges1 cur pr.1) pr.1.toNat (Int.ofNat cur)
    { s with fSymV := fSym1, fGraphVerts := verts1, fGraphEdges := edges2,
             jointNames := pr.2, fPrevV := s.fPrevV ++ [pr.1] }

/-- `Skeleton::makeSymmetric(name1, name2)` (skeleton.cpp lines 114-122):
looks both names up (default-inserting missing ones), swaps so that the larger
index receives the entry, and stores the smaller index there. -/
def makeSymmetric (s : Skeleton) (name1 name2 : String) : Skeleton :=
  let p1 := mapGetOrInsert s.jointNames name1
  let p2 := mapGetOrInsert p1.2 name2
  let ab := if p1.1 > p2.1 then (p2.1, p1.1) else (p1.1, p2.1)
  { s with jointNames := p2.2, fSymV := s.fSymV.set ab.2.toNat ab.1 }

/-- `Skeleton::setFoot(name)` (skeleton.cpp lines 124-128). -/
def setFoot (s : Skeleton) (name : String) : Skeleton :=
  let p := mapGetOrInsert s.jointNames name
  { s with jointNames := p.2,
           cFeetV := s.cFeetV.set (s.fcMapV.getD p.1.toNat (-1)).toNat true }

/-- `Skeleton::setFat(name)` (skeleton.cpp lines 130-134). -/
def setFat (s : Skeleton) (name : String) : Skeleton :=
  let p := mapGetOrInsert s.jointNames name
  { s with jointNames := p.2,
           cFatV := s.cFatV.set (s.fcMapV.getD p.1.toNat (-1)).toNat true }

/-- `Skeleton::scale(factor)` (skeleton.cpp lines 85-94): multiplies every
full vertex by `factor`, and every compressed vertex and (in the same loop,
bounded by the number of compressed vertices) every compressed bone length by
`factor`. -/
noncomputable def scale (s : Skeleton) (factor : ℝ) : Skeleton :=
  { s with
    fGraphVerts := s.fGraphVerts.map (fun v => v.smul factor),
    cGraphVerts := s.cGraphVerts.map (fun v => v.smul factor),
    cLengthV :=
      (s.cLengthV.take s.cGraphVerts.length).map (fun t => t * factor) ++
        s.cLengthV.drop s.cGraphVerts.length }

/-- One step of the first `initCompressed` loop (skeleton.cpp lines 31-37):
skip joint `i` when it has exactly two incident edges and is not the root,
otherwise assign it the next compressed index and append it to `cfMapV`. -/
def scanStep (edges : List (List Int)) (acc : List Int × List Int) (i : Nat) :
    List Int × List Int :=
  if (edges.getD i []).length = 2 ∧ i ≠ 0 then acc
  else (acc.1.set i (Int.ofNat acc.2.length), acc.2 ++ [Int.ofNat i])

/-- The first `initCompressed` loop over all full joints. -/
def compressScan (edges : List (List Int)) (n : Nat) (acc : List Int × List Int) :
    List Int × List Int :=
  (List.range n).foldl (scanStep edges) acc

/-- The `while(fcMapV[curPrev] < 0) curPrev = fPrevV[curPrev];` walk of
skeleton.cpp lines 56-57, bounded by fuel. -/
def walkUp (fcMap fPrev : List Int) : Nat → Nat → Nat
  | 0, cur => cur
  | fuel + 1, cur =>
      if fcMap.getD cur (-1) < 0 then walkUp fcMap fPrev fuel (fPrev.getD cur (-1)).toNat
      else cur

/-- Length of the full-skeleton segment from joint `cur` to its full parent,
mirroring `(fGraphV.verts[cur] - fGraphV.verts[fPrevV[cur]]).length()`. -/
noncomputable def segLen (verts : List PVector3) (fPrev : List Int) (cur : Nat) : ℝ :=
  ((verts.getD cur default).sub (verts.getD (fPrev.getD cur (-1)).toNat default)).len

/-- The `do { ... } while(fcMapV[cur] == -1)` chain walk of skeleton.cpp lines
74-78: returns the accumulated total length and the per-joint segment lengths
recorded into the `lengths` map, in traversal order. -/
noncomputable def boneWalk (verts : List PVector3) (fcMap fPrev : List Int) :
    Nat → Nat → ℝ × List (Nat × ℝ)
  | 0, cur => (segLen verts fPrev cur, [(cur, segLen verts fPrev cur)])
  | fuel + 1, cur =>
      if fcMap.getD ((fPrev.getD cur (-1)).toNat) (-1) = -1 then
        (segLen verts fPrev cur
            + (boneWalk verts fcMap fPrev fuel ((fPrev.getD cur (-1)).toNat)).1,
         (cur, segLen verts fPrev cur)
            :: (boneWalk verts fcMap fPrev fuel ((fPrev.getD cur (-1)).toNat)).2)
      else (segLen verts fPrev cur, [(cur, segLen verts fPrev cur)])

/-- One step of the symmetry-carrying part of the second loop
(skeleton.cpp lines 50-51). -/
def symStep (fSym fcMap cfMap : List Int) (acc : List Int) (i : Nat) : List Int :=
  let sy := fSym.getD (cfMap.getD i 0).toNat (-1)
  if 0 ≤ sy then acc.set i (fcMap.getD sy.toNat (-1)) else acc

/-- One step of the compressed-parent part of the second loop
(skeleton.cpp lines 54-59). -/
def prevStep (fcMap fPrev cfMap : List Int) (n : Nat) (acc : List Int) (i : Nat) :
    List Int :=
  if i = 0 then acc
  else
    let start := (fPrev.getD (cfMap.getD i 0).toNat (-1)).toNat
    acc.set i (fcMap.getD (walkUp fcMap fPrev n start) (-1))

/-- One step of the edge-building loop (skeleton.cpp lines 63-66). -/
def edgeStep (cPrev : List Int) (acc : List (List Int)) (i : Nat) : List (List Int) :=
  if i = 0 then acc
  else pushAt (pushAt acc i (cPrev.getD i (-1))) (cPrev.getD i (-1)).toNat (Int.ofNat i)

/-- One step of the lengths/fractions loop (skeleton.cpp lines 71-82):
walk the chain, add the total to `cLengthV[i]`, then record each traversed
joint's fraction `lengths[cur] / cLengthV[i]`. -/
noncomputable def lenStep (verts : List PVector3) (fcMap fPrev cfMap : List Int)
    (n : Nat) (acc : List ℝ × List ℝ) (i : Nat) : List ℝ × List ℝ :=
  if i = 0 then acc
  else
    let bw := boneWalk verts fcMap fPrev n (cfMap.getD i 0).toNat
    let cl := acc.1.set i (acc.1.getD i 0 + bw.1)
    let fr := bw.2.foldl (fun f p => f.set p.1 (p.2 / cl.getD i 0)) acc.2
    (cl, fr)

/-- `Skeleton::initCompressed()` (skeleton.cpp lines 24-83), with the five
loops rendered as folds over `List.range`. -/
noncomputable def initCompressed (s : Skeleton) : Skeleton :=
  let n := s.fPrevV.length
  let fcMap0 := listResize s.fcMapV n (-1)
  let fcFrac0 := listResize s.fcFractionV n (-1)
  let scanned := compressScan s.fGraphEdges n (fcMap0, s.cfMapV)
  let fcMap1 := scanned.1
  let cfMap1 := scanned.2
  let m := cfMap1.length
  let cPrev0 := listResize s.cPrevV m (-1)
  let cSym0 := listResize s.cSymV m (-1)
  let cEdges0 := listResize s.cGraphEdges m []
  let cVerts1 := s.cGraphVerts ++ cfMap1.map (fun f => s.fGraphVerts.getD f.toNat default)
  let cSym1 := (List.range m).foldl (symStep s.fSymV fcMap1 cfMap1) cSym0
  let cPrev1 := (List.range m).foldl (prevStep fcMap1 s.fPrevV cfMap1 n) cPrev0
  let cEdges1 := (List.range m).foldl (edgeStep cPrev1) cEdges0
  let cLen0 := listResize s.cLengthV m 0
  let lenFrac := (List.range m).foldl (lenStep s.fGraphVerts fcMap1 s.fPrevV cfMap1 n)
      (cLen0, fcFrac0)
  { s with fcMapV := fcMap1, cfMapV := cfMap1, cPrevV := cPrev1, cSymV := cSym1,
           cGraphVerts := cVerts1, cGraphEdges := cEdges1,
           cFeetV := List.replicate m false, cFatV := List.replicate m false,
           cLengthV := lenFrac.1, fcFractionV := lenFrac.2 }

/-- One parsed joint line of a skeleton description file:
`name x y z parentNameOrSentinel`. -/
structure SkelLine where
  name : String
  pt : PVector3
  parent : String

/-- One loop iteration of the `FileSkeleton` constructor: skip a line with
fewer than five words (`none`), otherwise call
`makeJoint(line[0], p * 2., line[4])`, turning the sentinel parent `"-1"`
into the empty string. -/
noncomputable def fileStep (acc : Skeleton) (l : Option SkelLine) : Skeleton :=
  match l with
  | none => acc
  | some L => makeJoint acc L.name (L.pt.smul 2)
      (if L.parent = "-1" then "" else L.parent)

/-- `FileSkeleton::FileSkeleton(filename)` (skeleton.cpp lines 347-373), with
the `ifstream`/`readWords`/`sscanf` plumbing abstracted: `none` stands for a
file that cannot be opened (reported to the `Debugging::out()` channel, here
the second component), and within an opened file a `none` entry stands for a
line with fewer than five words, which the loop skips. Each kept line feeds
`fileStep`, and the constructor finally calls `initCompressed`. -/
noncomputable def fileSkeleton (contents : Option (List (Option SkelLine))) :
    Skeleton × List String :=
  match contents with
  | none => (emptySkeleton, ["Error opening file"])
  | some lines => (initCompressed (lines.foldl fileStep emptySkeleton), [])

/-! ## Specification-side definitions

These definitions follow the wording of the spec (retention predicate, nearest
retained ancestor, the chain subsumed by a compressed bone, and the cumulative
fraction the spec ascribes to `fractionAlongBone`); the claim theorems compare
the code-derived data against them. -/

/-- Retention predicate, as worded by the spec and claim C1: joint `i` is
retained iff it is the root (`i = 0`) or its edge list does not have size 2. -/
def rB (edges : List (List Int)) (i : Nat) : Bool :=
  i == 0 || (edges.getD i []).length != 2

/-- Nearest retained ancestor, as worded by the spec: walk the full parent
chain upward until a retained joint is reached. -/
def nearestRetained (edges : List (List Int)) (fPrev : List Int) : Nat → Nat → Nat
  | 0, cur => cur
  | fuel + 1, cur =>
      if rB edges cur then cur
      else nearestRetained edges fPrev fuel (fPrev.getD cur (-1)).toNat

/-- The chain of full joints a compressed bone subsumes, as worded by the
spec: from the retained joint's full index down to (but not including) the
nearest retained ancestor. -/
def specChain (edges : List (List Int)) (fPrev : List Int) : Nat → Nat → List Nat
  | 0, cur => [cur]
  | fuel + 1, cur =>
      if rB edges ((fPrev.getD cur (-1)).toNat) then [cur]
      else cur :: specChain edges fPrev fuel ((fPrev.getD cur (-1)).toNat)

/-- Sum of segment lengths over a chain. -/
noncomputable def chainSum (verts : List PVector3) (fPrev : List Int) (ch : List Nat) : ℝ :=
  (ch.map (segLen verts fPrev)).sum

/-- Modelled from the spec wording of claim C2: the cumulative distance from
the compressed bone's child end `child` up to joint `j` (the sum of the
segment lengths traversed strictly before reaching `j`), expressed as a
fraction of the whole compressed bone's length. -/
noncomputable def cumulativeFrac (edges : List (List Int)) (fPrev : List Int)
    (verts : List PVector3) (fuel child j : Nat) : ℝ :=
  chainSum verts fPrev
      ((specChain edges fPrev fuel child).takeWhile (fun k => k ≠ j))
    / chainSum verts fPrev (specChain edges fPrev fuel child)

/-! ## Concrete skeletons used by witnesses and counterexamples

`skel3` is a three-joint chain `r -- a -- b` on the x axis: `a` has degree 2
and is not the root, so compression collapses it; the compressed bone from `b`
to `r` subsumes the two segments of (stored) lengths 2 and 1. -/

/-- Three-joint chain: positions (before the 0.5 scaling of `makeJoint`) are
`(0,0,0)`, `(2,0,0)`, `(6,0,0)`, so the stored segment lengths are 1 and 2. -/
noncomputable def skel3 : Skeleton :=
  makeJoint (makeJoint (makeJoint emptySkeleton "r" ⟨0, 0, 0⟩ "")
    "a" ⟨2, 0, 0⟩ "r") "b" ⟨6, 0, 0⟩ "a"

/-- `skel3` after compression. -/
noncomputable def skel3c : Skeleton := initCompressed skel3

/-! ## Well-formedness hypotheses

Every template constructor produces skeletons satisfying these by
construction; they are the decidable hypotheses of the general theorems. -/

/-- The compressed containers are all empty, as they are before the one-shot
`initCompressed` call. -/
def Pristine (s : Skeleton) : Prop :=
  s.fcMapV = [] ∧ s.cfMapV = [] ∧ s.cPrevV = [] ∧ s.cSymV = [] ∧
  s.cGraphVerts.length = 0 ∧ s.cGraphEdges = [] ∧ s.cLengthV.length = 0 ∧
  s.fcFractionV.length = 0

instance (s : Skeleton) : Decidable (Pristine s) := by
  unfold Pristine; infer_instance

/-- Parent indices are well formed: the root is joint 0 (parent `-1`) and
every other joint's parent index is nonnegative and strictly smaller. -/
def ParentsWF (s : Skeleton) : Prop :=
  (s.fPrevV.length = 0 ∨ s.fPrevV.getD 0 0 = -1) ∧
  ∀ x, x < s.fPrevV.length → 1 ≤ x →
    0 ≤ s.fPrevV.getD x (-1) ∧ (s.fPrevV.getD x (-1)).toNat < x

instance (s : Skeleton) : Decidable (ParentsWF s) := by
  unfold ParentsWF; infer_instance

/-! ## The first compression loop: retention and index assignment -/

lemma rB_iff_not_skip (edges : List (List Int)) (i : Nat) :
    rB edges i = true ↔ ¬((edges.getD i []).length = 2 ∧ i ≠ 0) := by
  simp only [rB, Bool.or_eq_true, beq_iff_eq, bne_iff_ne, ne_eq]
  tauto

lemma compressScan_succ (edges : List (List Int)) (n : Nat) (acc : List Int × List Int) :
    compressScan edges (n + 1) acc = scanStep edges (compressScan edges n acc) n := by
  unfold compressScan
  rw [List.range_succ, List.foldl_append]
  rfl

lemma compressScan_fst_length (edges : List (List Int)) (n : Nat)
    (acc : List Int × List Int) :
    (compressScan edges n acc).1.length = acc.1.length := by
  induction n with
  | zero => rfl
  | succ n ih =>
      rw [compressScan_succ]
      unfold scanStep
      split
      · exact ih
      · simpa using ih

lemma listResize_nil {α : Type} (n : Nat) (d : α) :
    listResize ([] : List α) n d = List.replicate n d := by
  unfold listResize
  split
  · have : n = 0 := by simpa using (by assumption : n ≤ ([] : List α).length)
    simp [this]
  · simp

/-- Characterization of the first `initCompressed` loop started from a fresh
`fcMapV` of `-1` entries: `cfMapV` lists the retained joints in increasing
order, and `fcMapV` maps each retained joint to the number of retained joints
before it, every other joint to `-1`. -/
lemma compressScan_spec (edges : List (List Int)) (N : Nat) (n : Nat) :
    (compressScan edges n (List.replicate N (-1), [])).2
      = ((List.range n).filter (rB edges)).map Int.ofNat
    ∧ ∀ i, i < N →
      (compressScan edges n (List.replicate N (-1), [])).1.getD i (-1)
        = if i < n ∧ rB edges i = true
          then Int.ofNat (((List.range i).filter (rB edges)).length)
          else -1 := by
  induction n with
  | zero =>
      refine ⟨rfl, fun i hi => ?_⟩
      simp [compressScan]
  | succ n ih =>
      obtain ⟨ih2, ih1⟩ := ih
      rw [compressScan_succ]
      by_cases h : (edges.getD n []).length = 2 ∧ n ≠ 0
      · have hrBf : rB edges n = false := by
          rw [Bool.eq_false_iff]
          exact fun ht => (rB_iff_not_skip edges n).mp ht h
        unfold scanStep
        rw [if_pos h]
        refine ⟨?_, fun i hi => ?_⟩
        · rw [ih2]
          simp [List.range_succ, List.filter_append, hrBf]
        · rw [ih1 i hi]
          have hcond : (i < n + 1 ∧ rB edges i = true) ↔ (i < n ∧ rB edges i = true) := by
            constructor
            · rintro ⟨h1, h2⟩
              refine ⟨?_, h2⟩
              rcases Nat.lt_succ_iff_lt_or_eq.mp h1 with h3 | h3
              · exact h3
              · rw [h3, hrBf] at h2
                exact absurd h2 (by simp)
            · exact fun hh => ⟨Nat.lt_succ_of_lt hh.1, hh.2⟩
          simp only [hcond]
      · have hrB : rB edges n = true := (rB_iff_not_skip edges n).mpr h
        unfold scanStep
        rw [if_neg h]
        refine ⟨?_, fun i hi => ?_⟩
        · rw [ih2]
          simp [List.range_succ, List.filter_append, hrB]
        · by_cases hin : i = n
          · subst hin
            have hlen : (compressScan edges i (List.replicate N (-1), [])).1.length = N := by
              rw [compressScan_fst_length]
              simp
            simp only [List.getD_eq_getElem?_getD]
            rw [List.getElem?_set_self (by omega)]
            rw [ih2]
            simp [hrB]
          · simp only [List.getD_eq_getElem?_getD]
            rw [List.getElem?_set_ne (fun hne => hin hne.symm)]
            rw [← List.getD_eq_getElem?_getD, ih1 i hi]
            have hcond : (i < n + 1 ∧ rB edges i = true) ↔ (i < n ∧ rB edges i = true) := by
              constructor
              · rintro ⟨h1, h2⟩
                exact ⟨by omega, h2⟩
              · rintro ⟨h1, h2⟩
                exact ⟨by omega, h2⟩
            simp only [hcond]

/-! ## Projections of `initCompressed` -/

lemma initCompressed_fcMapV (s : Skeleton) :
    (initCompressed s).fcMapV
      = (compressScan s.fGraphEdges s.fPrevV.length
          (listResize s.fcMapV s.fPrevV.length (-1), s.cfMapV)).1 := rfl

lemma initCompressed_cfMapV (s : Skeleton) :
    (initCompressed s).cfMapV
      = (compressScan s.fGraphEdges s.fPrevV.length
          (listResize s.fcMapV s.fPrevV.length (-1), s.cfMapV)).2 := rfl

lemma initCompressed_fGraphEdges (s : Skeleton) :
    (initCompressed s).fGraphEdges = s.fGraphEdges := rfl

lemma initCompressed_fPrevV (s : Skeleton) :
    (initCompressed s).fPrevV = s.fPrevV := rfl

lemma initCompressed_fGraphVerts (s : Skeleton) :
    (initCompressed s).fGraphVerts = s.fGraphVerts := rfl

/-- Under the pristine precondition the scan starts from a fresh `-1` table,
so the `compressScan_spec` characterization applies to `initCompressed`. -/
lemma initCompressed_scan_eq (s : Skeleton) (hp : Pristine s) :
    (initCompressed s).fcMapV
      = (compressScan s.fGraphEdges s.fPrevV.length
          (List.replicate s.fPrevV.length (-1), [])).1
    ∧ (initCompressed s).cfMapV
      = ((List.range s.fPrevV.length).filter (rB s.fGraphEdges)).map Int.ofNat := by
  obtain ⟨h1, h2, -⟩ := hp
  constructor
  · rw [initCompressed_fcMapV, h1, h2, listResize_nil]
  · rw [initCompressed_cfMapV, h1, h2, listResize_nil]
    exact (compressScan_spec s.fGraphEdges s.fPrevV.length s.fPrevV.length).1

/-! ## Claim C1 -/

/-- The property claim C1 asserts of `initCompressed`: the compressed index
map is a valid compressed index exactly on the root and the joints of degree
other than 2, is `-1` everywhere else, and numbers the retained joints
sequentially in increasing full-index order (equivalently, `cfMapV` is the
increasing enumeration of the retained joints). -/
def C1Concl (s : Skeleton) : Prop :=
  (initCompressed s).cfMapV
      = ((List.range s.fPrevV.length).filter (rB s.fGraphEdges)).map Int.ofNat
  ∧ ∀ i, i < s.fPrevV.length →
      (0 ≤ (initCompressed s).fcMapV.getD i (-1)
          ∧ (initCompressed s).fcMapV.getD i (-1) < (initCompressed s).cfMapV.length
        ↔ rB s.fGraphEdges i = true)
      ∧ (rB s.fGraphEdges i = true →
          (initCompressed s).fcMapV.getD i (-1)
            = Int.ofNat (((List.range i).filter (rB s.fGraphEdges)).length))
      ∧ (rB s.fGraphEdges i = false → (initCompressed s).fcMapV.getD i (-1) = -1)

/-- C1: compression retains exactly the joints that are the root or whose
degree in the full adjacency graph is not 2; retained joints get sequential
compressed indices in increasing full-index order and all others map to
`-1`. -/
theorem claim_C1 (s : Skeleton) (hp : Pristine s) : C1Concl s := by
  obtain ⟨hmap, hcf⟩ := initCompressed_scan_eq s hp
  obtain ⟨-, hchar⟩ := compressScan_spec s.fGraphEdges s.fPrevV.length s.fPrevV.length
  refine ⟨hcf, fun i hi => ?_⟩
  have hv := hchar i hi
  rw [← hmap] at hv
  have hm : (initCompressed s).cfMapV.length
      = ((List.range s.fPrevV.length).filter (rB s.fGraphEdges)).length := by
    rw [hcf, List.length_map]
  by_cases hr : rB s.fGraphEdges i = true
  · have hcnt : ((List.range i).filter (rB s.fGraphEdges)).length
        < ((List.range s.fPrevV.length).filter (rB s.fGraphEdges)).length := by
      have hsub : (List.range (i + 1)).Sublist (List.range s.fPrevV.length) :=
        List.range_sublist.mpr (by omega)
      have hle := (hsub.filter (rB s.fGraphEdges)).length_le
      rw [List.range_succ, List.filter_append] at hle
      simp only [List.filter_cons, hr, if_pos, List.filter_nil, List.length_append,
        List.length_cons, List.length_nil] at hle
      omega
    rw [hv, if_pos ⟨hi, hr⟩]
    refine ⟨⟨fun _ => hr, fun _ => ⟨by rw [Int.ofNat_eq_natCast]; exact Int.natCast_nonneg _, ?_⟩⟩, fun _ => rfl,
      fun hf => absurd hr (by simp [hf])⟩
    rw [hm, Int.ofNat_eq_natCast]
    exact_mod_cast hcnt
  · have hrf : rB s.fGraphEdges i = false := by
      rw [Bool.eq_false_iff]; exact hr
    rw [hv, if_neg (by tauto)]
    refine ⟨⟨fun hc => absurd (hc.1) (by norm_num), fun hc => absurd hc hr⟩, ?_, ?_⟩
    · exact fun hc => absurd hc hr
    · exact fun _ => rfl

/-- Witness for C1 at the concrete three-joint chain `skel3`. -/
theorem claim_C1_witness : Pristine skel3 ∧ C1Concl skel3 :=
  ⟨by decide, claim_C1 skel3 (by decide)⟩

/-! ## Generic lemmas about the loop folds -/

lemma foldl_range_succ {β : Type} (f : β → Nat → β) (init : β) (n : Nat) :
    (List.range (n + 1)).foldl f init = f ((List.range n).foldl f init) n := by
  rw [List.range_succ, List.foldl_append]
  rfl

lemma foldl_range_length {α : Type} (f : List α → Nat → List α) (init : List α)
    (hlen : ∀ acc i, (f acc i).length = acc.length) :
    ∀ m, ((List.range m).foldl f init).length = init.length := by
  intro m
  induction m with
  | zero => rfl
  | succ m ih => rw [foldl_range_succ, hlen, ih]

lemma foldl_range_getD_frozen {α : Type} (f : List α → Nat → List α) (init : List α)
    (j : Nat) (d : α)
    (hoth : ∀ acc i, i ≠ j → (f acc i).getD j d = acc.getD j d) :
    ∀ m, m ≤ j → ((List.range m).foldl f init).getD j d = init.getD j d := by
  intro m
  induction m with
  | zero => intro _; rfl
  | succ m ih =>
      intro hm
      rw [foldl_range_succ, hoth _ _ (by omega), ih (by omega)]

/-- A fold over `List.range m` in which only iteration `j` writes index `j`:
the final value at `j` is whatever iteration `j` wrote. -/
lemma foldl_range_set {α : Type} (f : List α → Nat → List α) (init : List α)
    (m j : Nat) (d v : α)
    (hlen : ∀ acc i, (f acc i).length = acc.length)
    (hoth : ∀ acc i, i ≠ j → (f acc i).getD j d = acc.getD j d)
    (hj : ∀ acc, acc.length = init.length → acc.getD j d = init.getD j d →
      (f acc j).getD j d = v)
    (hjm : j < m) :
    ((List.range m).foldl f init).getD j d = v := by
  induction m with
  | zero => omega
  | succ m ih =>
      rw [foldl_range_succ]
      by_cases hcase : j < m
      · rw [hoth _ _ (by omega)]
        exact ih hcase
      · have hjm2 : j = m := by omega
        subst hjm2
        exact hj _ (foldl_range_length f init hlen j)
          (foldl_range_getD_frozen f init j d hoth j (le_refl j))

/-! ## pushAt lemmas -/

lemma pushAt_length (l : List (List Int)) (i : Nat) (v : Int) :
    (pushAt l i v).length = l.length := by
  simp [pushAt]

lemma pushAt_getD_self (l : List (List Int)) (i : Nat) (v : Int) (h : i < l.length) :
    (pushAt l i v).getD i [] = l.getD i [] ++ [v] := by
  simp only [pushAt, List.getD_eq_getElem?_getD]
  rw [List.getElem?_set_self h]
  simp

lemma pushAt_getD_ne (l : List (List Int)) (i j : Nat) (v : Int) (h : i ≠ j) :
    (pushAt l i v).getD j [] = l.getD j [] := by
  simp only [pushAt, List.getD_eq_getElem?_getD]
  rw [List.getElem?_set_ne h]

lemma pushAt_mem (l : List (List Int)) (i j : Nat) (v w : Int)
    (h : w ∈ l.getD j []) : w ∈ (pushAt l i v).getD j [] := by
  by_cases hij : i = j
  · subst hij
    by_cases hlen : i < l.length
    · rw [pushAt_getD_self l i v hlen]
      exact List.mem_append_left _ h
    · unfold pushAt
      rw [List.set_eq_of_length_le (by omega)]
      exact h
  · rw [pushAt_getD_ne l i j v hij]
    exact h

/-! ## The parent-chain walks -/

lemma rB_zero (edges : List (List Int)) : rB edges 0 = true := by
  simp [rB]

/-- The `initCompressed` while-loop walk agrees with the spec-side
nearest-retained-ancestor walk, given that `fcMap` is negative exactly on the
collapsed joints and parent indices strictly decrease. -/
lemma walkUp_eq_nearestRetained (edges : List (List Int)) (fcMap fPrev : List Int)
    (n : Nat)
    (hchar : ∀ a, a < n → (fcMap.getD a (-1) < 0 ↔ rB edges a = false))
    (hwf : ∀ x, x < n → 1 ≤ x →
      0 ≤ fPrev.getD x (-1) ∧ (fPrev.getD x (-1)).toNat < x) :
    ∀ cur, cur < n → ∀ f1 f2, cur < f1 → cur < f2 →
      walkUp fcMap fPrev f1 cur = nearestRetained edges fPrev f2 cur := by
  intro cur
  induction cur using Nat.strong_induction_on with
  | _ cur ih =>
      intro hcn f1 f2 hf1 hf2
      cases f1 with
      | zero => omega
      | succ f1 =>
          cases f2 with
          | zero => omega
          | succ f2 =>
              by_cases hr : rB edges cur = true
              · have hpos : ¬ fcMap.getD cur (-1) < 0 := by
                  rw [hchar cur hcn, hr]
                  simp
                unfold walkUp nearestRetained
                rw [if_neg hpos, if_pos hr]
              · have hrf : rB edges cur = false := by rwa [Bool.eq_false_iff]
                have hneg : fcMap.getD cur (-1) < 0 := (hchar cur hcn).mpr hrf
                have hc1 : 1 ≤ cur := by
                  rcases Nat.eq_zero_or_pos cur with h0 | h0
                  · rw [h0, rB_zero edges] at hrf
                    simp at hrf
                  · exact h0
                obtain ⟨hp0, hplt⟩ := hwf cur hcn hc1
                unfold walkUp nearestRetained
                rw [if_pos hneg, if_neg hr]
                exact ih (fPrev.getD cur (-1)).toNat hplt (by omega) f1 f2
                  (by omega) (by omega)

/-- The nearest-retained-ancestor walk stays at or below its start and ends
at a retained joint. -/
lemma nearestRetained_props (edges : List (List Int)) (fPrev : List Int) (n : Nat)
    (hwf : ∀ x, x < n → 1 ≤ x →
      0 ≤ fPrev.getD x (-1) ∧ (fPrev.getD x (-1)).toNat < x) :
    ∀ cur, cur < n → ∀ f, cur < f →
      nearestRetained edges fPrev f cur ≤ cur
      ∧ rB edges (nearestRetained edges fPrev f cur) = true := by
  intro cur
  induction cur using Nat.strong_induction_on with
  | _ cur ih =>
      intro hcn f hf
      cases f with
      | zero => omega
      | succ f =>
          by_cases hr : rB edges cur = true
          · unfold nearestRetained
            rw [if_pos hr]
            exact ⟨le_refl _, hr⟩
          · have hrf : rB edges cur = false := by rwa [Bool.eq_false_iff]
            have hc1 : 1 ≤ cur := by
              rcases Nat.eq_zero_or_pos cur with h0 | h0
              · rw [h0, rB_zero edges] at hrf
                simp at hrf
              · exact h0
            obtain ⟨hp0, hplt⟩ := hwf cur hcn hc1
            unfold nearestRetained
            rw [if_neg hr]
            obtain ⟨h1, h2⟩ := ih (fPrev.getD cur (-1)).toNat hplt (by omega) f (by omega)
            exact ⟨le_trans h1 (by omega), h2⟩

/-! ## Facts about the retained-joint enumeration -/

lemma filter_range_facts (edges : List (List Int)) (n j : Nat)
    (hjm : j < ((List.range n).filter (rB edges)).length) :
    ((List.range n).filter (rB edges)).getD j 0 < n
    ∧ rB edges (((List.range n).filter (rB edges)).getD j 0) = true
    ∧ (1 ≤ j → 1 ≤ ((List.range n).filter (rB edges)).getD j 0) := by
  set L := (List.range n).filter (rB edges) with hL
  have hgd : L.getD j 0 = L[j] := by
    rw [List.getD_eq_getElem?_getD, List.getElem?_eq_getElem hjm]
    rfl
  have hmem : L[j] ∈ L := List.getElem_mem hjm
  have hmem2 := List.mem_filter.mp hmem
  refine ⟨?_, ?_, ?_⟩
  · rw [hgd]
    exact List.mem_range.mp hmem2.1
  · rw [hgd]
    exact hmem2.2
  · intro hj1
    have hpair : L.Pairwise (· < ·) :=
      List.Pairwise.sublist (List.filter_sublist _) (List.pairwise_lt_range n)
    have h0j : L[0] < L[j] :=
      (List.pairwise_iff_getElem.mp hpair) 0 j (by omega) hjm (by omega)
    rw [hgd]
    omega

/-! ## The compressed-edge loop -/

lemma edgeStep_zero (cPrev : List Int) (acc : List (List Int)) :
    edgeStep cPrev acc 0 = acc := rfl

lemma edgeStep_ne_zero (cPrev : List Int) (acc : List (List Int)) (i : Nat)
    (h : i ≠ 0) :
    edgeStep cPrev acc i
      = pushAt (pushAt acc i (cPrev.getD i (-1))) (cPrev.getD i (-1)).toNat
          (Int.ofNat i) := by
  unfold edgeStep
  rw [if_neg h]

lemma edgeStep_length (cPrev : List Int) (acc : List (List Int)) (i : Nat) :
    (edgeStep cPrev acc i).length = acc.length := by
  by_cases h : i = 0
  · rw [h, edgeStep_zero]
  · rw [edgeStep_ne_zero _ _ _ h, pushAt_length, pushAt_length]

lemma edgeFold_mem (cPrev : List Int) (m : Nat) (init : List (List Int))
    (hinit : init.length = m)
    (hvals : ∀ i, 1 ≤ i → i < m →
      0 ≤ cPrev.getD i (-1) ∧ (cPrev.getD i (-1)).toNat < m) :
    ∀ K, K ≤ m →
      ((List.range K).foldl (edgeStep cPrev) init).length = m
      ∧ ∀ j, 1 ≤ j → j < K →
          cPrev.getD j (-1) ∈ ((List.range K).foldl (edgeStep cPrev) init).getD j []
          ∧ Int.ofNat j ∈ ((List.range K).foldl (edgeStep cPrev) init).getD
              (cPrev.getD j (-1)).toNat [] := by
  intro K
  induction K with
  | zero => exact fun _ => ⟨hinit, fun j h1 h2 => absurd h2 (by omega)⟩
  | succ K ih =>
      intro hK
      obtain ⟨ihlen, ihmem⟩ := ih (by omega)
      rw [foldl_range_succ]
      constructor
      · rw [edgeStep_length]
        exact ihlen
      · intro j h1 h2
        by_cases hjK : j < K
        · obtain ⟨hm1, hm2⟩ := ihmem j h1 hjK
          by_cases hK0 : K = 0
          · subst hK0
            omega
          · rw [edgeStep_ne_zero _ _ _ hK0]
            exact ⟨pushAt_mem _ _ _ _ _ (pushAt_mem _ _ _ _ _ hm1),
                   pushAt_mem _ _ _ _ _ (pushAt_mem _ _ _ _ _ hm2)⟩
        · have hjK2 : j = K := by omega
          subst hjK2
          rw [edgeStep_ne_zero _ _ _ (by omega)]
          constructor
          · have hfirst : cPrev.getD j (-1)
                ∈ (pushAt ((List.range j).foldl (edgeStep cPrev) init) j
                    (cPrev.getD j (-1))).getD j [] := by
              rw [pushAt_getD_self _ _ _ (by rw [ihlen]; omega)]
              exact List.mem_append_right _ (by simp)
            exact pushAt_mem _ _ _ _ _ hfirst
          · have hvlt : (cPrev.getD j (-1)).toNat < m := (hvals j h1 (by omega)).2
            rw [pushAt_getD_self _ _ _ (by rw [pushAt_length, ihlen]; omega)]
            exact List.mem_append_right _ (by simp)

/-! ## Claim C4 -/

lemma initCompressed_cPrevV (s : Skeleton) :
    (initCompressed s).cPrevV
      = (List.range (initCompressed s).cfMapV.length).foldl
          (prevStep (initCompressed s).fcMapV s.fPrevV (initCompressed s).cfMapV
            s.fPrevV.length)
          (listResize s.cPrevV (initCompressed s).cfMapV.length (-1)) := rfl

lemma initCompressed_cGraphEdges (s : Skeleton) :
    (initCompressed s).cGraphEdges
      = (List.range (initCompressed s).cfMapV.length).foldl
          (edgeStep (initCompressed s).cPrevV)
          (listResize s.cGraphEdges (initCompressed s).cfMapV.length []) := rfl

/-- The property claim C4 asserts: for every retained non-root compressed
joint `j`, `cPrevV[j]` is the compressed index (`fcMapV` value) of the
nearest retained ancestor found by walking the full parent chain upward from
`j`'s full joint, that ancestor is indeed retained, the stored parent is a
valid compressed index, and the edge appears in both adjacency lists of the
compressed graph. -/
def C4Concl (s : Skeleton) : Prop :=
  ∀ j : Nat, 1 ≤ j → j < (initCompressed s).cfMapV.length →
    (initCompressed s).cPrevV.getD j (-1)
        = (initCompressed s).fcMapV.getD
            (nearestRetained s.fGraphEdges s.fPrevV s.fPrevV.length
              ((s.fPrevV.getD ((initCompressed s).cfMapV.getD j 0).toNat (-1)).toNat))
            (-1)
    ∧ rB s.fGraphEdges
        (nearestRetained s.fGraphEdges s.fPrevV s.fPrevV.length
          ((s.fPrevV.getD ((initCompressed s).cfMapV.getD j 0).toNat (-1)).toNat))
        = true
    ∧ 0 ≤ (initCompressed s).cPrevV.getD j (-1)
    ∧ (initCompressed s).cPrevV.getD j (-1) < (initCompressed s).cfMapV.length
    ∧ (initCompressed s).cPrevV.getD j (-1) ∈ (initCompressed s).cGraphEdges.getD j []
    ∧ Int.ofNat j ∈ (initCompressed s).cGraphEdges.getD
        ((initCompressed s).cPrevV.getD j (-1)).toNat []

lemma intOfNat_nonneg (k : Nat) : 0 ≤ Int.ofNat k := by
  rw [Int.ofNat_eq_natCast]
  exact Int.natCast_nonneg k

lemma count_lt_total (edges : List (List Int)) (n a : Nat) (han : a < n)
    (hra : rB edges a = true) :
    ((List.range a).filter (rB edges)).length
      < ((List.range n).filter (rB edges)).length := by
  have hsub : (List.range (a + 1)).Sublist (List.range n) :=
    List.range_sublist.mpr (by omega)
  have hle := (hsub.filter (rB edges)).length_le
  rw [List.range_succ, List.filter_append] at hle
  simp only [List.filter_cons, hra, if_pos, List.filter_nil, List.length_append,
    List.length_cons, List.length_nil] at hle
  omega

lemma prevStep_zero (fcMap fPrev cfMap : List Int) (n : Nat) (acc : List Int) :
    prevStep fcMap fPrev cfMap n acc 0 = acc := rfl

lemma prevStep_ne_zero (fcMap fPrev cfMap : List Int) (n : Nat) (acc : List Int)
    (i : Nat) (h : i ≠ 0) :
    prevStep fcMap fPrev cfMap n acc i
      = acc.set i (fcMap.getD
          (walkUp fcMap fPrev n ((fPrev.getD (cfMap.getD i 0).toNat (-1)).toNat))
          (-1)) := by
  unfold prevStep
  rw [if_neg h]

/-- C4: the compressed parent of every retained non-root joint is the
compressed index of its nearest retained full ancestor (the upward walk that
skips collapsed joints), the stored parent is a valid compressed index, and
the edge is recorded in both directions of the compressed graph. -/
theorem claim_C4 (s : Skeleton) (hp : Pristine s) (hw : ParentsWF s) : C4Concl s := by
  obtain ⟨hfc, hcf⟩ := initCompressed_scan_eq s hp
  have hscanchar := (compressScan_spec s.fGraphEdges s.fPrevV.length s.fPrevV.length).2
  have hchar : ∀ a, a < s.fPrevV.length →
      (initCompressed s).fcMapV.getD a (-1)
        = if a < s.fPrevV.length ∧ rB s.fGraphEdges a = true
          then Int.ofNat (((List.range a).filter (rB s.fGraphEdges)).length)
          else -1 := by
    intro a ha
    rw [hfc]
    exact hscanchar a ha
  have hcharlt : ∀ a, a < s.fPrevV.length →
      ((initCompressed s).fcMapV.getD a (-1) < 0 ↔ rB s.fGraphEdges a = false) := by
    intro a ha
    rw [hchar a ha]
    by_cases hr : rB s.fGraphEdges a = true
    · rw [if_pos ⟨ha, hr⟩]
      constructor
      · intro hlt
        exact absurd hlt (by
          have := intOfNat_nonneg (((List.range a).filter (rB s.fGraphEdges)).length)
          omega)
      · intro hfalse
        rw [hr] at hfalse
        simp at hfalse
    · rw [if_neg (by tauto)]
      constructor
      · intro _
        rwa [Bool.eq_false_iff]
      · intro _
        omega
  have hwf : ∀ x, x < s.fPrevV.length → 1 ≤ x →
      0 ≤ s.fPrevV.getD x (-1) ∧ (s.fPrevV.getD x (-1)).toNat < x :=
    fun x hx h1 => hw.2 x hx h1
  have hm : (initCompressed s).cfMapV.length
      = ((List.range s.fPrevV.length).filter (rB s.fGraphEdges)).length := by
    rw [hcf, List.length_map]
  -- the per-joint value of `cPrevV` and its bounds
  have hcore : ∀ j, 1 ≤ j → j < (initCompressed s).cfMapV.length →
      (initCompressed s).cPrevV.getD j (-1)
          = (initCompressed s).fcMapV.getD
              (nearestRetained s.fGraphEdges s.fPrevV s.fPrevV.length
                ((s.fPrevV.getD ((initCompressed s).cfMapV.getD j 0).toNat (-1)).toNat))
              (-1)
      ∧ rB s.fGraphEdges
          (nearestRetained s.fGraphEdges s.fPrevV s.fPrevV.length
            ((s.fPrevV.getD ((initCompressed s).cfMapV.getD j 0).toNat (-1)).toNat))
          = true
      ∧ 0 ≤ (initCompressed s).cPrevV.getD j (-1)
      ∧ (initCompressed s).cPrevV.getD j (-1) < (initCompressed s).cfMapV.length := by
    intro j h1 hjm
    have hjL : j < ((List.range s.fPrevV.length).filter (rB s.fGraphEdges)).length := by
      rw [← hm]
      exact hjm
    have hgetJ : (initCompressed s).cfMapV.getD j 0
        = Int.ofNat (((List.range s.fPrevV.length).filter (rB s.fGraphEdges)).getD j 0) := by
      rw [hcf]
      simp [List.getD_eq_getElem?_getD, List.getElem?_map, List.getElem?_eq_getElem hjL]
    have hchildToNat : ((initCompressed s).cfMapV.getD j 0).toNat
        = ((List.range s.fPrevV.length).filter (rB s.fGraphEdges)).getD j 0 := by
      rw [hgetJ]
      exact Int.toNat_ofNat _
    obtain ⟨hchn, hchr, hch1i⟩ := filter_range_facts s.fGraphEdges s.fPrevV.length j hjL
    have hch1 := hch1i h1
    obtain ⟨hpnn, hplt⟩ := hwf _ hchn hch1
    have hstartn :
        (s.fPrevV.getD
          (((List.range s.fPrevV.length).filter (rB s.fGraphEdges)).getD j 0) (-1)).toNat
          < s.fPrevV.length := by omega
    have hinit : listResize s.cPrevV (initCompressed s).cfMapV.length (-1)
        = List.replicate (initCompressed s).cfMapV.length (-1) := by
      rw [hp.2.2.1, listResize_nil]
    have hvalEq : (initCompressed s).cPrevV.getD j (-1)
        = (initCompressed s).fcMapV.getD
            (walkUp (initCompressed s).fcMapV s.fPrevV s.fPrevV.length
              ((s.fPrevV.getD ((initCompressed s).cfMapV.getD j 0).toNat (-1)).toNat))
            (-1) := by
      rw [initCompressed_cPrevV]
      apply foldl_range_set _ _ _ j (-1) _ _ _ _ hjm
      · intro acc i
        by_cases hi0 : i = 0
        · rw [hi0, prevStep_zero]
        · rw [prevStep_ne_zero _ _ _ _ _ _ hi0]
          simp
      · intro acc i hne
        by_cases hi0 : i = 0
        · rw [hi0, prevStep_zero]
        · rw [prevStep_ne_zero _ _ _ _ _ _ hi0]
          simp only [List.getD_eq_getElem?_getD]
          rw [List.getElem?_set_ne hne]
      · intro acc hacclen _
        rw [prevStep_ne_zero _ _ _ _ _ _ (by omega)]
        simp only [List.getD_eq_getElem?_getD]
        rw [List.getElem?_set_self (by rw [hacclen, hinit, List.length_replicate]; omega)]
        rfl
    rw [hchildToNat] at hvalEq
    have hbridge := walkUp_eq_nearestRetained s.fGraphEdges (initCompressed s).fcMapV
      s.fPrevV s.fPrevV.length hcharlt hwf _ hstartn s.fPrevV.length s.fPrevV.length
      (by omega) (by omega)
    rw [hbridge] at hvalEq
    obtain ⟨hAle, hArB⟩ := nearestRetained_props s.fGraphEdges s.fPrevV s.fPrevV.length
      hwf _ hstartn s.fPrevV.length (by omega)
    have hAn : nearestRetained s.fGraphEdges s.fPrevV s.fPrevV.length
        ((s.fPrevV.getD
          (((List.range s.fPrevV.length).filter (rB s.fGraphEdges)).getD j 0) (-1)).toNat)
        < s.fPrevV.length := by omega
    have hAval := hchar _ hAn
    rw [if_pos ⟨hAn, hArB⟩] at hAval
    rw [hchildToNat]
    refine ⟨hvalEq, hArB, ?_, ?_⟩
    · rw [hvalEq, hAval]
      exact intOfNat_nonneg _
    · rw [hvalEq, hAval, hm, Int.ofNat_eq_natCast]
      exact_mod_cast count_lt_total s.fGraphEdges s.fPrevV.length _ hAn hArB
  -- memberships in the compressed adjacency lists
  have hinitE : (listResize s.cGraphEdges (initCompressed s).cfMapV.length []).length
      = (initCompressed s).cfMapV.length := by
    rw [hp.2.2.2.2.2.1, listResize_nil, List.length_replicate]
  have hvals : ∀ i, 1 ≤ i → i < (initCompressed s).cfMapV.length →
      0 ≤ (initCompressed s).cPrevV.getD i (-1)
      ∧ ((initCompressed s).cPrevV.getD i (-1)).toNat
          < (initCompressed s).cfMapV.length := by
    intro i h1 h2
    obtain ⟨-, -, hv1, hv2⟩ := hcore i h1 h2
    exact ⟨hv1, by omega⟩
  have hmem := (edgeFold_mem (initCompressed s).cPrevV (initCompressed s).cfMapV.length
    (listResize s.cGraphEdges (initCompressed s).cfMapV.length []) hinitE hvals
    (initCompressed s).cfMapV.length (le_refl _)).2
  intro j h1 h2
  obtain ⟨hv1, hv2, hv3, hv4⟩ := hcore j h1 h2
  obtain ⟨hm1, hm2⟩ := hmem j h1 h2
  rw [initCompressed_cGraphEdges]
  exact ⟨hv1, hv2, hv3, hv4, hm1, hm2⟩

/-- Witness for C4 at the concrete three-joint chain `skel3`. -/
theorem claim_C4_witness : Pristine skel3 ∧ ParentsWF skel3 ∧ C4Concl skel3 :=
  ⟨by decide, by decide, claim_C4 skel3 (by decide) (by decide)⟩

/-! ## Claim C5: bone lengths -/

/-- The `do-while` chain walk of the lengths loop visits exactly the
spec-side chain (child end up to, excluding, the nearest retained ancestor),
records each visited joint with its own segment length, and accumulates the
chain's total length. -/
lemma boneWalk_eq_specChain (edges : List (List Int)) (fcMap fPrev : List Int)
    (verts : List PVector3) (n : Nat)
    (hcharEq : ∀ a, a < n → (fcMap.getD a (-1) = -1 ↔ rB edges a = false))
    (hwf : ∀ x, x < n → 1 ≤ x →
      0 ≤ fPrev.getD x (-1) ∧ (fPrev.getD x (-1)).toNat < x) :
    ∀ cur, cur < n → 1 ≤ cur → ∀ f1 f2, cur < f1 → cur < f2 →
      (boneWalk verts fcMap fPrev f1 cur).2
          = (specChain edges fPrev f2 cur).map (fun k => (k, segLen verts fPrev k))
      ∧ (boneWalk verts fcMap fPrev f1 cur).1
          = chainSum verts fPrev (specChain edges fPrev f2 cur) := by
  intro cur
  induction cur using Nat.strong_induction_on with
  | _ cur ih =>
      intro hcn hc1 f1 f2 hf1 hf2
      cases f1 with
      | zero => omega
      | succ f1 =>
          cases f2 with
          | zero => omega
          | succ f2 =>
              obtain ⟨hpnn, hplt⟩ := hwf cur hcn hc1
              have hnxtn : (fPrev.getD cur (-1)).toNat < n := by omega
              by_cases hr : rB edges (fPrev.getD cur (-1)).toNat = true
              · have hstop : ¬ fcMap.getD (fPrev.getD cur (-1)).toNat (-1) = -1 := by
                  rw [hcharEq _ hnxtn, hr]
                  simp
                unfold boneWalk specChain
                rw [if_neg hstop, if_pos hr]
                constructor
                · rfl
                · simp [chainSum]
              · have hrf : rB edges (fPrev.getD cur (-1)).toNat = false := by
                  rwa [Bool.eq_false_iff]
                have hgo : fcMap.getD (fPrev.getD cur (-1)).toNat (-1) = -1 :=
                  (hcharEq _ hnxtn).mpr hrf
                have hn1 : 1 ≤ (fPrev.getD cur (-1)).toNat := by
                  rcases Nat.eq_zero_or_pos (fPrev.getD cur (-1)).toNat with h0 | h0
                  · rw [h0, rB_zero edges] at hrf
                    simp at hrf
                  · exact h0
                obtain ⟨ihsnd, ihfst⟩ := ih (fPrev.getD cur (-1)).toNat hplt hnxtn hn1
                  f1 f2 (by omega) (by omega)
                unfold boneWalk specChain
                rw [if_pos hgo, if_neg hr]
                constructor
                · simp only [List.map_cons]
                  rw [ihsnd]
                · rw [ihfst]
                  simp [chainSum]

lemma initCompressed_cLengthV (s : Skeleton) :
    (initCompressed s).cLengthV
      = ((List.range (initCompressed s).cfMapV.length).foldl
          (lenStep s.fGraphVerts (initCompressed s).fcMapV s.fPrevV
            (initCompressed s).cfMapV s.fPrevV.length)
          (listResize s.cLengthV (initCompressed s).cfMapV.length 0,
           listResize s.fcFractionV s.fPrevV.length (-1))).1 := rfl

lemma initCompressed_fcFractionV (s : Skeleton) :
    (initCompressed s).fcFractionV
      = ((List.range (initCompressed s).cfMapV.length).foldl
          (lenStep s.fGraphVerts (initCompressed s).fcMapV s.fPrevV
            (initCompressed s).cfMapV s.fPrevV.length)
          (listResize s.cLengthV (initCompressed s).cfMapV.length 0,
           listResize s.fcFractionV s.fPrevV.length (-1))).2 := rfl

lemma foldl_pair_fst {α β : Type} (F : α × β → Nat → α × β) (G : α → Nat → α)
    (h : ∀ p i, (F p i).1 = G p.1 i) :
    ∀ (l : List Nat) (p : α × β), (l.foldl F p).1 = l.foldl G p.1 := by
  intro l
  induction l with
  | nil => intro p; rfl
  | cons a t ih =>
      intro p
      rw [List.foldl_cons, List.foldl_cons, ih, h]

/-- The first component of `lenStep` only depends on the first component. -/
noncomputable def lenStepFst (verts : List PVector3) (fcMap fPrev cfMap : List Int)
    (n : Nat) (cl : List ℝ) (i : Nat) : List ℝ :=
  if i = 0 then cl
  else cl.set i (cl.getD i 0 + (boneWalk verts fcMap fPrev n (cfMap.getD i 0).toNat).1)

lemma lenStep_fst (verts : List PVector3) (fcMap fPrev cfMap : List Int) (n : Nat)
    (p : List ℝ × List ℝ) (i : Nat) :
    (lenStep verts fcMap fPrev cfMap n p i).1 = lenStepFst verts fcMap fPrev cfMap n p.1 i := by
  unfold lenStep lenStepFst
  split
  · rfl
  · rfl

/-- Characterization of `fcMapV` after `initCompressed` on a pristine
skeleton. -/
lemma fcMap_char (s : Skeleton) (hp : Pristine s) :
    ∀ a, a < s.fPrevV.length →
      (initCompressed s).fcMapV.getD a (-1)
        = if a < s.fPrevV.length ∧ rB s.fGraphEdges a = true
          then Int.ofNat (((List.range a).filter (rB s.fGraphEdges)).length)
          else -1 := by
  intro a ha
  rw [(initCompressed_scan_eq s hp).1]
  exact (compressScan_spec s.fGraphEdges s.fPrevV.length s.fPrevV.length).2 a ha

/-- `fcMapV` equals `-1` exactly on the collapsed (non-retained) joints. -/
lemma fcMap_eqneg_iff (s : Skeleton) (hp : Pristine s) :
    ∀ a, a < s.fPrevV.length →
      ((initCompressed s).fcMapV.getD a (-1) = -1 ↔ rB s.fGraphEdges a = false) := by
  intro a ha
  rw [fcMap_char s hp a ha]
  by_cases hr : rB s.fGraphEdges a = true
  · rw [if_pos ⟨ha, hr⟩]
    constructor
    · intro heq
      have := intOfNat_nonneg (((List.range a).filter (rB s.fGraphEdges)).length)
      omega
    · intro hfalse
      rw [hr] at hfalse
      simp at hfalse
  · rw [if_neg (by tauto)]
    exact ⟨fun _ => by rwa [Bool.eq_false_iff], fun _ => rfl⟩

/-- The `j`-th compressed joint: its full index, bounds, and retention. -/
lemma cfMap_entry (s : Skeleton) (hp : Pristine s) (j : Nat)
    (hjm : j < (initCompressed s).cfMapV.length) :
    ((initCompressed s).cfMapV.getD j 0).toNat
        = ((List.range s.fPrevV.length).filter (rB s.fGraphEdges)).getD j 0
    ∧ ((initCompressed s).cfMapV.getD j 0).toNat < s.fPrevV.length
    ∧ rB s.fGraphEdges ((initCompressed s).cfMapV.getD j 0).toNat = true
    ∧ (1 ≤ j → 1 ≤ ((initCompressed s).cfMapV.getD j 0).toNat) := by
  have hcf := (initCompressed_scan_eq s hp).2
  have hjL : j < ((List.range s.fPrevV.length).filter (rB s.fGraphEdges)).length := by
    rw [← List.length_map _ Int.ofNat, ← hcf]
    exact hjm
  have hgetJ : (initCompressed s).cfMapV.getD j 0
      = Int.ofNat (((List.range s.fPrevV.length).filter (rB s.fGraphEdges)).getD j 0) := by
    rw [hcf]
    simp [List.getD_eq_getElem?_getD, List.getElem?_map, List.getElem?_eq_getElem hjL]
  have hent : ((initCompressed s).cfMapV.getD j 0).toNat
      = ((List.range s.fPrevV.length).filter (rB s.fGraphEdges)).getD j 0 := by
    rw [hgetJ]
    exact Int.toNat_ofNat _
  obtain ⟨h1, h2, h3⟩ := filter_range_facts s.fGraphEdges s.fPrevV.length j hjL
  rw [hent]
  exact ⟨rfl, h1, h2, h3⟩

lemma lenStepFst_zero (verts : List PVector3) (fcMap fPrev cfMap : List Int)
    (n : Nat) (cl : List ℝ) :
    lenStepFst verts fcMap fPrev cfMap n cl 0 = cl := rfl

lemma lenStepFst_ne_zero (verts : List PVector3) (fcMap fPrev cfMap : List Int)
    (n : Nat) (cl : List ℝ) (i : Nat) (h : i ≠ 0) :
    lenStepFst verts fcMap fPrev cfMap n cl i
      = cl.set i (cl.getD i 0
          + (boneWalk verts fcMap fPrev n (cfMap.getD i 0).toNat).1) := by
  unfold lenStepFst
  rw [if_neg h]

/-- The property claim C5 asserts: each compressed bone's stored length
equals the sum of the Euclidean lengths of the full-skeleton segments on the
chain from the bone's child-end full joint up to (but not including) its
nearest retained ancestor. -/
def C5Concl (s : Skeleton) : Prop :=
  ∀ j : Nat, 1 ≤ j → j < (initCompressed s).cfMapV.length →
    (initCompressed s).cLengthV.getD j 0
      = chainSum s.fGraphVerts s.fPrevV
          (specChain s.fGraphEdges s.fPrevV s.fPrevV.length
            ((initCompressed s).cfMapV.getD j 0).toNat)

/-- Shared computation: the stored compressed bone length is the chain sum. -/
lemma cLength_eq_chainSum (s : Skeleton) (hp : Pristine s) (hw : ParentsWF s) :
    ∀ j : Nat, 1 ≤ j → j < (initCompressed s).cfMapV.length →
    (initCompressed s).cLengthV.getD j 0
      = chainSum s.fGraphVerts s.fPrevV
          (specChain s.fGraphEdges s.fPrevV s.fPrevV.length
            ((initCompressed s).cfMapV.getD j 0).toNat) := by
  intro j h1 hjm
  obtain ⟨-, hchn, hchr, hch1i⟩ := cfMap_entry s hp j hjm
  have hch1 := hch1i h1
  have hwf : ∀ x, x < s.fPrevV.length → 1 ≤ x →
      0 ≤ s.fPrevV.getD x (-1) ∧ (s.fPrevV.getD x (-1)).toNat < x :=
    fun x hx h1x => hw.2 x hx h1x
  have hcLen : s.cLengthV = [] := List.length_eq_zero.mp hp.2.2.2.2.2.2.1
  have hinit : listResize s.cLengthV (initCompressed s).cfMapV.length 0
      = List.replicate (initCompressed s).cfMapV.length 0 := by
    rw [hcLen, listResize_nil]
  rw [initCompressed_cLengthV,
    foldl_pair_fst _ _ (lenStep_fst s.fGraphVerts (initCompressed s).fcMapV s.fPrevV
      (initCompressed s).cfMapV s.fPrevV.length)]
  apply foldl_range_set _ _ _ j 0 _ _ _ _ hjm
  · intro acc i
    by_cases hi0 : i = 0
    · rw [hi0, lenStepFst_zero]
    · rw [lenStepFst_ne_zero _ _ _ _ _ _ _ hi0]
      simp
  · intro acc i hne
    by_cases hi0 : i = 0
    · rw [hi0, lenStepFst_zero]
    · rw [lenStepFst_ne_zero _ _ _ _ _ _ _ hi0]
      simp only [List.getD_eq_getElem?_getD]
      rw [List.getElem?_set_ne hne]
  · intro acc hacclen haccval
    have hzero : (List.replicate (initCompressed s).cfMapV.length (0:ℝ)).getD j 0 = 0 := by
      simp [List.getD_eq_getElem?_getD, List.getElem?_replicate, hjm]
    have hbw := (boneWalk_eq_specChain s.fGraphEdges (initCompressed s).fcMapV s.fPrevV
      s.fGraphVerts s.fPrevV.length (fcMap_eqneg_iff s hp) hwf
      ((initCompressed s).cfMapV.getD j 0).toNat hchn hch1
      s.fPrevV.length s.fPrevV.length (by omega) (by omega)).2
    rw [lenStepFst_ne_zero _ _ _ _ _ _ _ (by omega)]
    simp only [List.getD_eq_getElem?_getD]
    rw [List.getElem?_set_self (by
      rw [hacclen, hinit, List.length_replicate]
      omega)]
    simp only [Option.getD_some]
    simp only [← List.getD_eq_getElem?_getD]
    rw [haccval, hinit, hzero, hbw, zero_add]

/-- C5: `cLengthV[j]` is the total Euclidean length of the chain of full
segments the compressed bone subsumes, from the bone's child-end full joint
up to (but not including) its nearest retained ancestor. -/
theorem claim_C5 (s : Skeleton) (hp : Pristine s) (hw : ParentsWF s) : C5Concl s :=
  cLength_eq_chainSum s hp hw

/-- Witness for C5 at the concrete three-joint chain `skel3`. -/
theorem claim_C5_witness : Pristine skel3 ∧ ParentsWF skel3 ∧ C5Concl skel3 :=
  ⟨by decide, by decide, claim_C5 skel3 (by decide) (by decide)⟩

/-! ## Claim C2: the fraction table -/

lemma lenStep_zero (verts : List PVector3) (fcMap fPrev cfMap : List Int) (n : Nat)
    (acc : List ℝ × List ℝ) :
    lenStep verts fcMap fPrev cfMap n acc 0 = acc := rfl

lemma lenStep_ne_zero (verts : List PVector3) (fcMap fPrev cfMap : List Int) (n : Nat)
    (acc : List ℝ × List ℝ) (i : Nat) (h : i ≠ 0) :
    lenStep verts fcMap fPrev cfMap n acc i
      = (acc.1.set i (acc.1.getD i 0
            + (boneWalk verts fcMap fPrev n (cfMap.getD i 0).toNat).1),
         (boneWalk verts fcMap fPrev n (cfMap.getD i 0).toNat).2.foldl
           (fun f q => f.set q.1 (q.2
              / (acc.1.set i (acc.1.getD i 0
                  + (boneWalk verts fcMap fPrev n (cfMap.getD i 0).toNat).1)).getD i 0))
           acc.2) := by
  unfold lenStep
  rw [if_neg h]

lemma innerFold_length (L : List (Nat × ℝ)) (c : ℝ) (f0 : List ℝ) :
    (L.foldl (fun f q => f.set q.1 (q.2 / c)) f0).length = f0.length := by
  induction L generalizing f0 with
  | nil => rfl
  | cons a t ih =>
      rw [List.foldl_cons, ih, List.length_set]

lemma innerFold_no_touch (L : List (Nat × ℝ)) (c : ℝ) (f0 : List ℝ) (p : Nat)
    (hnot : p ∉ L.map Prod.fst) :
    (L.foldl (fun f q => f.set q.1 (q.2 / c)) f0).getD p 0 = f0.getD p 0 := by
  induction L generalizing f0 with
  | nil => rfl
  | cons a t ih =>
      have ha : a.1 ≠ p := by
        intro he
        exact hnot (by
          rw [List.map_cons, ← he]
          exact List.mem_cons_self _ _)
      rw [List.foldl_cons, ih _ (fun hmem => hnot (by
        rw [List.map_cons]
        exact List.mem_cons_of_mem _ hmem))]
      simp only [List.getD_eq_getElem?_getD]
      rw [List.getElem?_set_ne ha]

lemma innerFold_getD : ∀ (L : List (Nat × ℝ)) (c : ℝ) (f0 : List ℝ) (p : Nat) (x : ℝ),
    (p, x) ∈ L → (L.map Prod.fst).Nodup → p < f0.length →
    (L.foldl (fun f q => f.set q.1 (q.2 / c)) f0).getD p 0 = x / c := by
  intro L
  induction L with
  | nil =>
      intro c f0 p x hmem _ _
      cases hmem
  | cons a t ih =>
      intro c f0 p x hmem hkeys hplen
      rw [List.map_cons] at hkeys
      rcases List.mem_cons.mp hmem with hhead | htail
      · have ha : a = (p, x) := hhead.symm
        subst ha
        rw [List.foldl_cons]
        have hnott : p ∉ t.map Prod.fst := (List.nodup_cons.mp hkeys).1
        rw [innerFold_no_touch t c _ p hnott]
        simp only [List.getD_eq_getElem?_getD]
        rw [List.getElem?_set_self hplen]
        rfl
      · have hane : a.1 ≠ p := by
          intro he
          have hmemp : p ∈ t.map Prod.fst := List.mem_map.mpr ⟨(p, x), htail, rfl⟩
          rw [← he] at hmemp
          exact (List.nodup_cons.mp hkeys).1 hmemp
        rw [List.foldl_cons]
        exact ih c _ p x htail (List.nodup_cons.mp hkeys).2 (by rwa [List.length_set])

lemma lenFold_snd_length (verts : List PVector3) (fcMap fPrev cfMap : List Int)
    (n : Nat) (init : List ℝ × List ℝ) :
    ∀ K, ((List.range K).foldl (lenStep verts fcMap fPrev cfMap n) init).2.length
      = init.2.length := by
  intro K
  induction K with
  | zero => rfl
  | succ K ih =>
      rw [foldl_range_succ]
      by_cases h0 : K = 0
      · rw [h0, lenStep_zero]
        rw [h0] at ih
        exact ih
      · rw [lenStep_ne_zero _ _ _ _ _ _ _ h0]
        simp only
        rw [innerFold_length]
        exact ih

/-- The value written into `fcFractionV` at a joint `p` of bone `j0`'s chain:
its own segment length divided by the bone's accumulated total. All chains are
given by an abstract `chain` function that `boneWalk` is assumed to follow;
chains of distinct bones are assumed disjoint (which holds in a tree). -/
lemma lenFold_snd_getD (verts : List PVector3) (fcMap fPrev cfMap : List Int)
    (n m : Nat) (cLen0 fr0 : List ℝ) (chain : Nat → List Nat) (j0 p : Nat)
    (hkeys : ∀ i, 1 ≤ i → i < m →
      (boneWalk verts fcMap fPrev n (cfMap.getD i 0).toNat).2
        = (chain i).map (fun k => (k, segLen verts fPrev k)))
    (hnodup : (chain j0).Nodup)
    (hdisj : ∀ i, 1 ≤ i → i < m → i ≠ j0 → List.Disjoint (chain i) (chain j0))
    (hj0a : 1 ≤ j0) (hj0m : j0 < m) (hj0len : j0 < cLen0.length)
    (hp_in : p ∈ chain j0) (hplen : p < fr0.length) :
    ((List.range m).foldl (lenStep verts fcMap fPrev cfMap n) (cLen0, fr0)).2.getD p 0
      = segLen verts fPrev p
        / (cLen0.getD j0 0 + (boneWalk verts fcMap fPrev n (cfMap.getD j0 0).toNat).1) := by
  have hfst : ∀ K, ((List.range K).foldl (lenStep verts fcMap fPrev cfMap n)
      (cLen0, fr0)).1 = (List.range K).foldl (lenStepFst verts fcMap fPrev cfMap n) cLen0 :=
    fun K => foldl_pair_fst _ _ (lenStep_fst verts fcMap fPrev cfMap n) _ _
  have hfstlen : ∀ K, ((List.range K).foldl (lenStepFst verts fcMap fPrev cfMap n)
      cLen0).length = cLen0.length := by
    intro K
    apply foldl_range_length
    intro acc i
    by_cases h0 : i = 0
    · rw [h0, lenStepFst_zero]
    · rw [lenStepFst_ne_zero _ _ _ _ _ _ _ h0, List.length_set]
  have hfstfrozen : ∀ K, K ≤ j0 →
      ((List.range K).foldl (lenStepFst verts fcMap fPrev cfMap n) cLen0).getD j0 0
        = cLen0.getD j0 0 := by
    intro K hK
    apply foldl_range_getD_frozen
    · intro acc i hne
      by_cases h0 : i = 0
      · rw [h0, lenStepFst_zero]
      · rw [lenStepFst_ne_zero _ _ _ _ _ _ _ h0]
        simp only [List.getD_eq_getElem?_getD]
        rw [List.getElem?_set_ne hne]
    · exact hK
  have main : ∀ K, K ≤ m →
      ((List.range K).foldl (lenStep verts fcMap fPrev cfMap n) (cLen0, fr0)).2.getD p 0
        = if j0 < K
          then segLen verts fPrev p
            / (cLen0.getD j0 0 + (boneWalk verts fcMap fPrev n (cfMap.getD j0 0).toNat).1)
          else fr0.getD p 0 := by
    intro K
    induction K with
    | zero =>
        intro _
        rw [if_neg (by omega)]
        rfl
    | succ K ihK =>
        intro hKm
        have ihv := ihK (by omega)
        rw [foldl_range_succ]
        by_cases h0 : K = 0
        · rw [h0, lenStep_zero]
          rw [h0] at ihv
          rw [ihv, if_neg (by omega), if_neg (by omega)]
        · rw [lenStep_ne_zero _ _ _ _ _ _ _ h0]
          simp only
          by_cases hKj : K = j0
          · subst hKj
            rw [hkeys K hj0a (by omega)]
            have hmemL : (p, segLen verts fPrev p)
                ∈ (chain K).map (fun k => (k, segLen verts fPrev k)) :=
              List.mem_map.mpr ⟨p, hp_in, rfl⟩
            have hkeysN : (((chain K).map (fun k => (k, segLen verts fPrev k))).map
                Prod.fst).Nodup := by
              rw [List.map_map]
              show (List.map (fun k : Nat => k) (chain K)).Nodup
              rw [List.map_id']
              exact hnodup
            have hplen2 : p < ((List.range K).foldl
                (lenStep verts fcMap fPrev cfMap n) (cLen0, fr0)).2.length := by
              rw [lenFold_snd_length]
              exact hplen
            rw [innerFold_getD _ _ _ p (segLen verts fPrev p) hmemL hkeysN hplen2]
            rw [if_pos (by omega)]
            have hsetval : (((List.range K).foldl (lenStep verts fcMap fPrev cfMap n)
                (cLen0, fr0)).1.set K
                  (((List.range K).foldl (lenStep verts fcMap fPrev cfMap n)
                    (cLen0, fr0)).1.getD K 0
                    + (boneWalk verts fcMap fPrev n (cfMap.getD K 0).toNat).1)).getD K 0
                = cLen0.getD K 0
                    + (boneWalk verts fcMap fPrev n (cfMap.getD K 0).toNat).1 := by
              simp only [List.getD_eq_getElem?_getD]
              rw [List.getElem?_set_self (by
                rw [hfst, hfstlen]
                exact hj0len)]
              simp only [Option.getD_some]
              simp only [← List.getD_eq_getElem?_getD]
              rw [hfst, hfstfrozen K (le_refl K)]
            rw [hsetval]
          · have hnotin : p ∉ (((chain K).map
                (fun k => (k, segLen verts fPrev k))).map Prod.fst) := by
              intro hmem
              have hpK : p ∈ chain K := by
                rcases List.mem_map.mp hmem with ⟨q, hq, hq2⟩
                rcases List.mem_map.mp hq with ⟨k, hk, hk2⟩
                rw [← hq2, ← hk2]
                exact hk
              exact hdisj K (by omega) (by omega) hKj hpK hp_in
            rw [hkeys K (by omega) (by omega)]
            rw [innerFold_no_touch _ _ _ p hnotin]
            rw [ihv]
            by_cases hlt : j0 < K
            · rw [if_pos hlt, if_pos (by omega)]
            · rw [if_neg hlt, if_neg (by omega)]
  have hfin := main m (le_refl m)
  rw [if_pos hj0m] at hfin
  exact hfin

/-- Every joint on a chain lies at or below the chain's child end. -/
lemma specChain_le (edges : List (List Int)) (fPrev : List Int) (n : Nat)
    (hwf : ∀ x, x < n → 1 ≤ x →
      0 ≤ fPrev.getD x (-1) ∧ (fPrev.getD x (-1)).toNat < x) :
    ∀ f cur, cur < n → 1 ≤ cur → ∀ p ∈ specChain edges fPrev f cur, p ≤ cur := by
  intro f
  induction f with
  | zero =>
      intro cur hcn hc1 p hp
      have : p = cur := List.mem_singleton.mp hp
      omega
  | succ f ih =>
      intro cur hcn hc1 p hp
      unfold specChain at hp
      by_cases hr : rB edges ((fPrev.getD cur (-1)).toNat) = true
      · rw [if_pos hr] at hp
        have : p = cur := List.mem_singleton.mp hp
        omega
      · rw [if_neg hr] at hp
        rcases List.mem_cons.mp hp with h | h
        · omega
        · have hrf : rB edges ((fPrev.getD cur (-1)).toNat) = false := by
            rwa [Bool.eq_false_iff]
          have hn1 : 1 ≤ (fPrev.getD cur (-1)).toNat := by
            rcases Nat.eq_zero_or_pos (fPrev.getD cur (-1)).toNat with h0 | h0
            · rw [h0, rB_zero edges] at hrf
              simp at hrf
            · exact h0
          obtain ⟨-, hplt⟩ := hwf cur hcn hc1
          have := ih _ (by omega) hn1 p h
          omega

lemma drop_one_range (M : Nat) :
    (List.range (M + 1)).drop 1 = (List.range M).map Nat.succ := by
  rw [List.range_succ_eq_map]
  rfl

lemma mem_drop_one_range (M j : Nat) :
    j ∈ (List.range M).drop 1 ↔ 1 ≤ j ∧ j < M := by
  cases M with
  | zero => simp
  | succ M =>
      rw [drop_one_range]
      simp only [List.mem_map, List.mem_range]
      constructor
      · rintro ⟨a, ha, rfl⟩
        omega
      · rintro ⟨h1, h2⟩
        exact ⟨j - 1, by omega, by omega⟩

/-- The chains of the distinct compressed bones are pairwise disjoint and
individually duplicate-free (true for every tree-shaped skeleton; this is the
decidable hypothesis the fraction theorem uses). -/
def ChainsNodup (s : Skeleton) : Prop :=
  (((List.range (initCompressed s).cfMapV.length).drop 1).flatMap
    (fun j => specChain s.fGraphEdges s.fPrevV s.fPrevV.length
      ((initCompressed s).cfMapV.getD j 0).toNat)).Nodup

noncomputable instance (s : Skeleton) : Decidable (ChainsNodup s) := by
  unfold ChainsNodup
  infer_instance

lemma chainsNodup_facts (s : Skeleton) (hcn : ChainsNodup s) :
    (∀ j, 1 ≤ j → j < (initCompressed s).cfMapV.length →
      (specChain s.fGraphEdges s.fPrevV s.fPrevV.length
        ((initCompressed s).cfMapV.getD j 0).toNat).Nodup)
    ∧ (∀ i j, 1 ≤ i → i < (initCompressed s).cfMapV.length →
        1 ≤ j → j < (initCompressed s).cfMapV.length → i ≠ j →
        List.Disjoint
          (specChain s.fGraphEdges s.fPrevV s.fPrevV.length
            ((initCompressed s).cfMapV.getD i 0).toNat)
          (specChain s.fGraphEdges s.fPrevV s.fPrevV.length
            ((initCompressed s).cfMapV.getD j 0).toNat)) := by
  unfold ChainsNodup at hcn
  rw [List.nodup_flatMap] at hcn
  obtain ⟨h1, h2⟩ := hcn
  constructor
  · intro j hj1 hjm
    exact h1 j ((mem_drop_one_range _ j).mpr ⟨hj1, hjm⟩)
  · intro i j hi1 him hj1 hjm hij
    obtain ⟨M2, hM⟩ : ∃ M2, (initCompressed s).cfMapV.length = M2 + 1 :=
      ⟨(initCompressed s).cfMapV.length - 1, by omega⟩
    rw [hM, drop_one_range, List.pairwise_map] at h2
    have hpg := List.pairwise_iff_getElem.mp h2
    rcases Nat.lt_or_ge i j with hlt | hge
    · have hd := hpg (i - 1) (j - 1)
        (by rw [List.length_range]; omega) (by rw [List.length_range]; omega)
        (by omega)
      simp only [List.getElem_range] at hd
      have hi2 : Nat.succ (i - 1) = i := by omega
      have hj2 : Nat.succ (j - 1) = j := by omega
      rw [hi2, hj2] at hd
      exact hd
    · have hd := hpg (j - 1) (i - 1)
        (by rw [List.length_range]; omega) (by rw [List.length_range]; omega)
        (by omega)
      simp only [List.getElem_range] at hd
      have hi2 : Nat.succ (i - 1) = i := by omega
      have hj2 : Nat.succ (j - 1) = j := by omega
      rw [hi2, hj2] at hd
      exact List.Disjoint.symm hd

/-- What the fraction table actually stores (the amended claim C2): at every
joint `p` of a compressed bone's chain, `fcFractionV[p]` is the length of
`p`'s own full segment (from `p` to its full parent) divided by the whole
compressed bone's length — not the cumulative distance from the child end. -/
def C2Amended (s : Skeleton) : Prop :=
  ∀ j : Nat, 1 ≤ j → j < (initCompressed s).cfMapV.length →
    ∀ p ∈ specChain s.fGraphEdges s.fPrevV s.fPrevV.length
        ((initCompressed s).cfMapV.getD j 0).toNat,
      (initCompressed s).fcFractionV.getD p 0
        = segLen s.fGraphVerts s.fPrevV p / (initCompressed s).cLengthV.getD j 0

/-- Shared computation: every stored fraction is a per-segment ratio. -/
lemma fcFraction_eq_ratio (s : Skeleton) (hp : Pristine s) (hw : ParentsWF s)
    (hcn : ChainsNodup s) : C2Amended s := by
  intro j h1 hjm p hpchain
  have hwf : ∀ x, x < s.fPrevV.length → 1 ≤ x →
      0 ≤ s.fPrevV.getD x (-1) ∧ (s.fPrevV.getD x (-1)).toNat < x :=
    fun x hx h1x => hw.2 x hx h1x
  obtain ⟨-, hchn, hchr, hch1i⟩ := cfMap_entry s hp j hjm
  have hch1 := hch1i h1
  obtain ⟨hnodupAll, hdisjAll⟩ := chainsNodup_facts s hcn
  have hkeys : ∀ i, 1 ≤ i → i < (initCompressed s).cfMapV.length →
      (boneWalk s.fGraphVerts (initCompressed s).fcMapV s.fPrevV s.fPrevV.length
        ((initCompressed s).cfMapV.getD i 0).toNat).2
        = (specChain s.fGraphEdges s.fPrevV s.fPrevV.length
            ((initCompressed s).cfMapV.getD i 0).toNat).map
            (fun k => (k, segLen s.fGraphVerts s.fPrevV k)) := by
    intro i hi1 him
    obtain ⟨-, hin, -, h1i⟩ := cfMap_entry s hp i him
    exact (boneWalk_eq_specChain s.fGraphEdges (initCompressed s).fcMapV s.fPrevV
      s.fGraphVerts s.fPrevV.length (fcMap_eqneg_iff s hp) hwf _ hin (h1i hi1)
      s.fPrevV.length s.fPrevV.length (by omega) (by omega)).1
  have hcLen : s.cLengthV = [] := List.length_eq_zero.mp hp.2.2.2.2.2.2.1
  have hfrac : s.fcFractionV = [] := List.length_eq_zero.mp hp.2.2.2.2.2.2.2
  have hinitL : listResize s.cLengthV (initCompressed s).cfMapV.length 0
      = List.replicate (initCompressed s).cfMapV.length 0 := by
    rw [hcLen, listResize_nil]
  have hinitF : listResize s.fcFractionV s.fPrevV.length (-1)
      = List.replicate s.fPrevV.length (-1) := by
    rw [hfrac, listResize_nil]
  have hple : p ≤ ((initCompressed s).cfMapV.getD j 0).toNat :=
    specChain_le s.fGraphEdges s.fPrevV s.fPrevV.length hwf s.fPrevV.length _
      hchn hch1 p hpchain
  rw [initCompressed_fcFractionV]
  rw [lenFold_snd_getD s.fGraphVerts (initCompressed s).fcMapV s.fPrevV
    (initCompressed s).cfMapV s.fPrevV.length (initCompressed s).cfMapV.length
    _ _ (fun i => specChain s.fGraphEdges s.fPrevV s.fPrevV.length
      ((initCompressed s).cfMapV.getD i 0).toNat) j p hkeys
    (hnodupAll j h1 hjm) (fun i hi1 him hij => hdisjAll i j hi1 him h1 hjm hij)
    h1 hjm (by rw [hinitL, List.length_replicate]; exact hjm) hpchain
    (by rw [hinitF, List.length_replicate]; omega)]
  have hz : (listResize s.cLengthV (initCompressed s).cfMapV.length 0).getD j 0
      = 0 := by
    rw [hinitL]
    simp [List.getD_eq_getElem?_getD, List.getElem?_replicate, hjm]
  rw [hz, zero_add]
  have hbw := (boneWalk_eq_specChain s.fGraphEdges (initCompressed s).fcMapV s.fPrevV
    s.fGraphVerts s.fPrevV.length (fcMap_eqneg_iff s hp) hwf _ hchn hch1
    s.fPrevV.length s.fPrevV.length (by omega) (by omega)).2
  rw [hbw, ← cLength_eq_chainSum s hp hw j h1 hjm]

/-- Amended C2: for every joint on a compressed bone's chain, the stored
`fcFractionV` value is the length of that joint's own full segment divided by
the compressed bone's total length (a per-segment ratio), not the cumulative
distance from the bone's child end. -/
theorem claim_C2 (s : Skeleton) (hp : Pristine s) (hw : ParentsWF s)
    (hcn : ChainsNodup s) : C2Amended s :=
  fcFraction_eq_ratio s hp hw hcn

/-- Witness for the amended C2 at the concrete three-joint chain `skel3`. -/
theorem claim_C2_witness :
    Pristine skel3 ∧ ParentsWF skel3 ∧ ChainsNodup skel3 ∧ C2Amended skel3 :=
  ⟨by decide, by decide, by decide, claim_C2 skel3 (by decide) (by decide) (by decide)⟩

/-! ## Concrete evaluation at `skel3`, and the counterexample to C2 as stated -/

lemma skel3_seg1 : segLen skel3.fGraphVerts skel3.fPrevV 1 = 1 := by
  show ((PVector3.smul ⟨2, 0, 0⟩ 0.5).sub (PVector3.smul ⟨0, 0, 0⟩ 0.5)).len = 1
  have hsub : (PVector3.smul ⟨2, 0, 0⟩ 0.5).sub (PVector3.smul ⟨0, 0, 0⟩ 0.5)
      = ⟨1, 0, 0⟩ := by
    unfold PVector3.smul PVector3.sub
    norm_num
  rw [hsub]
  unfold PVector3.len
  rw [show (1:ℝ) ^ 2 + 0 ^ 2 + 0 ^ 2 = 1 ^ 2 by norm_num,
    Real.sqrt_sq (by norm_num : (0:ℝ) ≤ 1)]

lemma skel3_seg2 : segLen skel3.fGraphVerts skel3.fPrevV 2 = 2 := by
  show ((PVector3.smul ⟨6, 0, 0⟩ 0.5).sub (PVector3.smul ⟨2, 0, 0⟩ 0.5)).len = 2
  have hsub : (PVector3.smul ⟨6, 0, 0⟩ 0.5).sub (PVector3.smul ⟨2, 0, 0⟩ 0.5)
      = ⟨2, 0, 0⟩ := by
    unfold PVector3.smul PVector3.sub
    norm_num
  rw [hsub]
  unfold PVector3.len
  rw [show (2:ℝ) ^ 2 + 0 ^ 2 + 0 ^ 2 = 2 ^ 2 by norm_num,
    Real.sqrt_sq (by norm_num : (0:ℝ) ≤ 2)]

lemma skel3_chain : specChain skel3.fGraphEdges skel3.fPrevV skel3.fPrevV.length
    (((initCompressed skel3).cfMapV.getD 1 0).toNat) = [2, 1] := by decide

lemma skel3_cLength : (initCompressed skel3).cLengthV.getD 1 0 = 3 := by
  rw [cLength_eq_chainSum skel3 (by decide) (by decide) 1 (by decide) (by decide),
    skel3_chain]
  unfold chainSum
  rw [List.map_cons, List.map_cons, List.map_nil, List.sum_cons, List.sum_cons,
    List.sum_nil, skel3_seg1, skel3_seg2]
  norm_num

lemma skel3_frac1 : (initCompressed skel3).fcFractionV.getD 1 0 = 1 / 3 := by
  have h := fcFraction_eq_ratio skel3 (by decide) (by decide) (by decide) 1
    (by decide) (by decide) 1 (by rw [skel3_chain]; decide)
  rw [h, skel3_seg1, skel3_cLength]

lemma skel3_frac2 : (initCompressed skel3).fcFractionV.getD 2 0 = 2 / 3 := by
  have h := fcFraction_eq_ratio skel3 (by decide) (by decide) (by decide) 1
    (by decide) (by decide) 2 (by rw [skel3_chain]; decide)
  rw [h, skel3_seg2, skel3_cLength]

lemma skel3_cumulative :
    cumulativeFrac skel3.fGraphEdges skel3.fPrevV skel3.fGraphVerts
      skel3.fPrevV.length (((initCompressed skel3).cfMapV.getD 1 0).toNat) 1
      = 2 / 3 := by
  unfold cumulativeFrac
  rw [skel3_chain]
  have htw : ([2, 1].takeWhile (fun k => decide (k ≠ 1))) = [2] := by decide
  rw [htw]
  unfold chainSum
  simp only [List.map_cons, List.map_nil, List.sum_cons, List.sum_nil]
  rw [skel3_seg1, skel3_seg2]
  norm_num

/-- Counterexample to claim C2 as stated at the three-joint chain `skel3`:
joint 1 lies on the single compressed bone's chain whose child end is joint 2;
the cumulative distance from the child end up to joint 1 is 2/3 of the bone,
but the code stores 1/3 (joint 1's own segment ratio); moreover the stored
fractions are not strictly increasing toward the retained ancestor
(fraction at joint 2 = 2/3 > 1/3 = fraction at joint 1, although joint 1 is
nearer the ancestor). -/
theorem claim_C2_counterexample :
    (initCompressed skel3).fcFractionV.getD 1 0
        ≠ cumulativeFrac skel3.fGraphEdges skel3.fPrevV skel3.fGraphVerts
            skel3.fPrevV.length (((initCompressed skel3).cfMapV.getD 1 0).toNat) 1
    ∧ ¬ ((initCompressed skel3).fcFractionV.getD 2 0
          < (initCompressed skel3).fcFractionV.getD 1 0) := by
  rw [skel3_frac1, skel3_frac2, skel3_cumulative]
  norm_num

/-! ## Claim C6: uniform scaling -/

lemma smul_smul_cancel (v : PVector3) (f : ℝ) (hf : f ≠ 0) :
    (v.smul f).smul (1 / f) = v := by
  cases v with
  | mk x y z =>
      unfold PVector3.smul
      simp only [PVector3.mk.injEq]
      refine ⟨?_, ?_, ?_⟩ <;> field_simp

/-- The property claim C6 asserts of `scale`: every full vertex, compressed
vertex and compressed bone length is multiplied by the factor, all fractions,
parent/symmetry indices and foot/fat tags are unchanged, and scaling by `f`
then `1/f` restores the skeleton exactly. -/
def C6Concl (s : Skeleton) (f : ℝ) : Prop :=
  (scale s f).fGraphVerts = s.fGraphVerts.map (fun v => v.smul f)
  ∧ (scale s f).cGraphVerts = s.cGraphVerts.map (fun v => v.smul f)
  ∧ (scale s f).cLengthV = s.cLengthV.map (fun t => t * f)
  ∧ (scale s f).fcFractionV = s.fcFractionV
  ∧ (scale s f).fPrevV = s.fPrevV
  ∧ (scale s f).fSymV = s.fSymV
  ∧ (scale s f).cPrevV = s.cPrevV
  ∧ (scale s f).cSymV = s.cSymV
  ∧ (scale s f).fcMapV = s.fcMapV
  ∧ (scale s f).cfMapV = s.cfMapV
  ∧ (scale s f).cFeetV = s.cFeetV
  ∧ (scale s f).cFatV = s.cFatV
  ∧ scale (scale s f) (1 / f) = s

/-- C6: `scale` multiplies exactly the geometric data by the factor, leaves
every structural field unchanged, and is undone exactly by scaling with the
reciprocal factor. -/
theorem claim_C6 (s : Skeleton) (f : ℝ) (hf : f ≠ 0)
    (hlen : s.cLengthV.length = s.cGraphVerts.length) : C6Concl s f := by
  have htake : s.cLengthV.take s.cGraphVerts.length = s.cLengthV := by
    rw [← hlen]
    exact List.take_length _
  have hdrop : s.cLengthV.drop s.cGraphVerts.length = [] := by
    rw [← hlen]
    exact List.drop_length _
  have hcl : (scale s f).cLengthV = s.cLengthV.map (fun t => t * f) := by
    show (s.cLengthV.take s.cGraphVerts.length).map _
        ++ s.cLengthV.drop s.cGraphVerts.length = _
    rw [htake, hdrop, List.append_nil]
  have hmapv : ∀ l : List PVector3,
      (l.map (fun v => v.smul f)).map (fun v => v.smul (1 / f)) = l := by
    intro l
    rw [List.map_map]
    apply List.map_id''
    intro v
    exact smul_smul_cancel v f hf
  have hlen2 : (scale s f).cLengthV.length = (scale s f).cGraphVerts.length := by
    rw [hcl, List.length_map]
    show s.cLengthV.length = (s.cGraphVerts.map _).length
    rw [List.length_map, hlen]
  have htake2 : (scale s f).cLengthV.take (scale s f).cGraphVerts.length
      = (scale s f).cLengthV := by
    rw [← hlen2]
    exact List.take_length _
  have hdrop2 : (scale s f).cLengthV.drop (scale s f).cGraphVerts.length = [] := by
    rw [← hlen2]
    exact List.drop_length _
  refine ⟨rfl, rfl, hcl, rfl, rfl, rfl, rfl, rfl, rfl, rfl, rfl, rfl, ?_⟩
  apply Skeleton.ext
  · exact hmapv s.fGraphVerts
  · rfl
  · rfl
  · rfl
  · rfl
  · exact hmapv s.cGraphVerts
  · rfl
  · rfl
  · rfl
  · rfl
  · rfl
  · show ((scale s f).cLengthV.take (scale s f).cGraphVerts.length).map _
        ++ (scale s f).cLengthV.drop (scale s f).cGraphVerts.length = s.cLengthV
    rw [htake2, hdrop2, List.append_nil, hcl, List.map_map]
    apply List.map_id''
    intro t
    show t * f * (1 / f) = t
    field_simp
  · rfl
  · rfl
  · rfl

/-- Witness for C6: scale the compressed `skel3` by 2, then by 1/2. -/
theorem claim_C6_witness :
    (2:ℝ) ≠ 0 ∧ skel3c.cLengthV.length = skel3c.cGraphVerts.length
    ∧ C6Concl skel3c 2 :=
  ⟨by norm_num, by decide, claim_C6 skel3c 2 (by norm_num) (by decide)⟩

/-! ## Claim C7: canonical symmetry storage -/

lemma mapGetOrInsert_found (m : List (String × Int)) (k : String) (v : Int)
    (h : mapFind m k = some v) : mapGetOrInsert m k = (v, m) := by
  unfold mapGetOrInsert
  rw [h]

/-- The property claim C7 asserts of `makeSymmetric` on two existing,
distinct joint names: the call is order-insensitive, the relation is stored
only on the higher-indexed joint (pointing to the lower index), the
lower-indexed joint's entry is untouched, and the name registry is
unchanged. -/
def C7Concl (s : Skeleton) (name1 name2 : String) (i1 i2 : Int) : Prop :=
  makeSymmetric s name1 name2 = makeSymmetric s name2 name1
  ∧ (makeSymmetric s name1 name2).fSymV
      = s.fSymV.set (max i1 i2).toNat (min i1 i2)
  ∧ (makeSymmetric s name1 name2).fSymV.getD (max i1 i2).toNat 0 = min i1 i2
  ∧ (makeSymmetric s name1 name2).fSymV.getD (min i1 i2).toNat 0
      = s.fSymV.getD (min i1 i2).toNat 0
  ∧ (makeSymmetric s name1 name2).jointNames = s.jointNames

/-- C7: the symmetry relation is stored on the higher-indexed joint of the
pair, pointing to the lower-indexed one, in either argument order, and the
lower-indexed joint's entry is left unchanged. -/
theorem claim_C7 (s : Skeleton) (name1 name2 : String) (i1 i2 : Int)
    (h1 : mapFind s.jointNames name1 = some i1)
    (h2 : mapFind s.jointNames name2 = some i2)
    (hne : i1 ≠ i2) (hnn1 : 0 ≤ i1) (hnn2 : 0 ≤ i2)
    (hbound : (max i1 i2).toNat < s.fSymV.length) :
    C7Concl s name1 name2 i1 i2 := by
  have e1 := mapGetOrInsert_found _ _ _ h1
  have e2 := mapGetOrInsert_found _ _ _ h2
  have hA : makeSymmetric s name1 name2
      = { s with jointNames := s.jointNames,
                 fSymV := s.fSymV.set (max i1 i2).toNat (min i1 i2) } := by
    unfold makeSymmetric
    simp only [e1, e2]
    rcases lt_or_gt_of_ne hne with h | h
    · rw [if_neg (by omega), max_eq_right h.le, min_eq_left h.le]
    · rw [if_pos h, max_eq_left h.le, min_eq_right h.le]
  have hB : makeSymmetric s name2 name1
      = { s with jointNames := s.jointNames,
                 fSymV := s.fSymV.set (max i1 i2).toNat (min i1 i2) } := by
    unfold makeSymmetric
    simp only [e1, e2]
    rcases lt_or_gt_of_ne hne with h | h
    · rw [if_pos h, max_eq_right h.le, min_eq_left h.le]
    · rw [if_neg (by omega), max_eq_left h.le, min_eq_right h.le]
  have htne : (min i1 i2).toNat ≠ (max i1 i2).toNat := by
    rcases lt_or_gt_of_ne hne with h | h
    · rw [max_eq_right h.le, min_eq_left h.le]
      omega
    · rw [max_eq_left h.le, min_eq_right h.le]
      omega
  refine ⟨by rw [hA, hB], by rw [hA], ?_, ?_, by rw [hA]⟩
  · rw [hA]
    show (s.fSymV.set (max i1 i2).toNat (min i1 i2)).getD (max i1 i2).toNat 0
        = min i1 i2
    simp only [List.getD_eq_getElem?_getD]
    rw [List.getElem?_set_self hbound]
    rfl
  · rw [hA]
    show (s.fSymV.set (max i1 i2).toNat (min i1 i2)).getD (min i1 i2).toNat 0
        = s.fSymV.getD (min i1 i2).toNat 0
    simp only [List.getD_eq_getElem?_getD]
    rw [List.getElem?_set_ne (fun hh => htne hh.symm)]

/-- Witness for C7: joints `"a"` (index 1) and `"b"` (index 2) of `skel3`. -/
theorem claim_C7_witness :
    mapFind skel3.jointNames "a" = some 1
    ∧ mapFind skel3.jointNames "b" = some 2
    ∧ (1:Int) ≠ 2 ∧ (0:Int) ≤ 1 ∧ (0:Int) ≤ 2
    ∧ (max (1:Int) 2).toNat < skel3.fSymV.length
    ∧ C7Concl skel3 "a" "b" 1 2 :=
  ⟨by decide, by decide, by decide, by decide, by decide, by decide,
   claim_C7 skel3 "a" "b" 1 2 (by decide) (by decide) (by decide) (by decide)
     (by decide) (by decide)⟩

/-! ## Claim C3: behaviour on unknown/duplicate names

The C++ name registry is a `std::map` accessed with `operator[]`, so an
unknown name is silently default-inserted with index 0 and a duplicate
`makeJoint` name silently rebinds the registry entry; no error path exists
anywhere in `skeleton.cpp`. -/

lemma mapFind_cons (k1 : String) (v1 : Int) (t : List (String × Int)) (k : String) :
    mapFind ((k1, v1) :: t) k = if k1 = k then some v1 else mapFind t k := rfl

lemma mapSet_cons (k1 : String) (v1 : Int) (t : List (String × Int)) (k : String)
    (v : Int) :
    mapSet ((k1, v1) :: t) k v
      = if k1 = k then (k, v) :: t else (k1, v1) :: mapSet t k v := rfl

lemma mapFind_mapSet_self (m : List (String × Int)) (k : String) (v : Int) :
    mapFind (mapSet m k v) k = some v := by
  induction m with
  | nil =>
      show mapFind [(k, v)] k = some v
      rw [mapFind_cons, if_pos rfl]
  | cons a t ih =>
      obtain ⟨k1, v1⟩ := a
      rw [mapSet_cons]
      by_cases h : k1 = k
      · rw [if_pos h, mapFind_cons, if_pos rfl]
      · rw [if_neg h, mapFind_cons, if_neg h]
        exact ih

lemma mapFind_mapSet_ne (m : List (String × Int)) (k k2 : String) (v : Int)
    (h : k ≠ k2) : mapFind (mapSet m k v) k2 = mapFind m k2 := by
  induction m with
  | nil =>
      show mapFind [(k, v)] k2 = mapFind [] k2
      rw [mapFind_cons, if_neg h]
  | cons a t ih =>
      obtain ⟨k1, v1⟩ := a
      rw [mapSet_cons]
      by_cases hk : k1 = k
      · rw [if_pos hk, mapFind_cons, mapFind_cons, if_neg h,
          if_neg (by rw [hk]; exact h)]
      · rw [if_neg hk, mapFind_cons, mapFind_cons]
        by_cases hk2 : k1 = k2
        · rw [if_pos hk2, if_pos hk2]
        · rw [if_neg hk2, if_neg hk2]
          exact ih

lemma mapFind_append_none (m1 m2 : List (String × Int)) (k : String)
    (h : mapFind m1 k = none) : mapFind (m1 ++ m2) k = mapFind m2 k := by
  induction m1 with
  | nil => rfl
  | cons a t ih =>
      obtain ⟨k1, v1⟩ := a
      rw [mapFind_cons] at h
      rw [List.cons_append, mapFind_cons]
      by_cases hk : k1 = k
      · rw [if_pos hk] at h
        cases h
      · rw [if_neg hk] at h ⊢
        exact ih h

/-- What the three misuse scenarios of claim C3 actually do (the amended
claim): `makeJoint` with an unknown parent default-registers the unknown name
at index 0 and silently attaches the new joint to joint 0; `makeJoint` with a
duplicate name silently rebinds the name to the new joint; `makeSymmetric`
with an unknown second name default-registers it at index 0 and records a
bogus symmetry with the root. Every call completes normally and mutates the
skeleton; no error is reported and no state is rolled back. -/
def C3Concl (s : Skeleton) : Prop :=
  (∀ nm prev : String, ∀ pos : PVector3, prev ≠ "" → prev ≠ nm →
      mapFind s.jointNames prev = none →
      (makeJoint s nm pos prev).fPrevV = s.fPrevV ++ [0]
      ∧ mapFind (makeJoint s nm pos prev).jointNames prev = some 0
      ∧ (makeJoint s nm pos prev).fSymV = s.fSymV ++ [-1])
  ∧ (∀ nm : String, ∀ pos : PVector3, ∀ d : Int,
      mapFind s.jointNames nm = some d →
      mapFind (makeJoint s nm pos "").jointNames nm
        = some (Int.ofNat s.fSymV.length))
  ∧ (∀ n1 n2 : String, ∀ i1 : Int, mapFind s.jointNames n1 = some i1 → 0 < i1 →
      mapFind s.jointNames n2 = none →
      makeSymmetric s n1 n2
        = { s with jointNames := s.jointNames ++ [(n2, 0)],
                   fSymV := s.fSymV.set i1.toNat 0 })

/-- Amended C3: none of the three misuse scenarios is detected; each call
completes silently with the mutated state described by `C3Concl`. -/
theorem claim_C3 (s : Skeleton) : C3Concl s := by
  refine ⟨?_, ?_, ?_⟩
  · intro nm prev pos hne1 hne2 hnone
    have hn1 : mapFind (mapSet s.jointNames nm (Int.ofNat s.fSymV.length)) prev
        = none := by
      rw [mapFind_mapSet_ne _ _ _ _ (fun hh => hne2 hh.symm)]
      exact hnone
    have hins : mapGetOrInsert (mapSet s.jointNames nm (Int.ofNat s.fSymV.length))
        prev = (0, mapSet s.jointNames nm (Int.ofNat s.fSymV.length) ++ [(prev, 0)]) := by
      unfold mapGetOrInsert
      rw [hn1]
    simp only [makeJoint]
    rw [if_neg hne1]
    simp only [hins]
    refine ⟨trivial, ?_, trivial⟩
    rw [mapFind_append_none _ _ _ hn1, mapFind_cons, if_pos rfl]
  · intro nm pos d hdup
    show mapFind (mapSet s.jointNames nm (Int.ofNat s.fSymV.length)) nm
        = some (Int.ofNat s.fSymV.length)
    exact mapFind_mapSet_self _ _ _
  · intro n1 n2 i1 h1 hpos hnone
    have e1 := mapGetOrInsert_found _ _ _ h1
    have e2 : mapGetOrInsert s.jointNames n2 = (0, s.jointNames ++ [(n2, 0)]) := by
      unfold mapGetOrInsert
      rw [hnone]
    unfold makeSymmetric
    simp only [e1, e2]
    rw [if_pos (by omega)]

/-- Witness for the amended C3 at `skel3`. -/
theorem claim_C3_witness : C3Concl skel3 := claim_C3 skel3

/-- Counterexample to claim C3 as stated, at `skel3`: the claim demands that
these misuses fail loudly and leave no partial state, but each call below
completes and leaves the described mutated state (the code has no error path
at all): `makeJoint` with unknown parent `"ghost"` attaches the new joint to
joint 0 and registers `"ghost"` at index 0; `makeJoint` with the duplicate
name `"b"` rebinds `"b"` to the new joint 3; `makeSymmetric` with unknown
`"ghost"` records a symmetry of joint 1 with the root and registers
`"ghost"`. -/
theorem claim_C3_counterexample :
    (makeJoint skel3 "c" ⟨0, 0, 0⟩ "ghost").fPrevV = [-1, 0, 1, 0]
    ∧ mapFind (makeJoint skel3 "c" ⟨0, 0, 0⟩ "ghost").jointNames "ghost" = some 0
    ∧ mapFind (makeJoint skel3 "b" ⟨0, 0, 0⟩ "").jointNames "b" = some 3
    ∧ (makeSymmetric skel3 "a" "ghost").fSymV = [-1, 0, -1]
    ∧ mapFind (makeSymmetric skel3 "a" "ghost").jointNames "ghost" = some 0 := by
  refine ⟨?_, ?_, ?_, ?_, ?_⟩ <;> decide

/-! ## Claims C9 and C10: the file-driven skeleton -/

/-- C9: constructing a `FileSkeleton` from an unopenable file reports the
error on the diagnostic channel and yields the empty skeleton: no joints, no
name registry, and no compressed data of any kind. -/
theorem claim_C9 :
    (fileSkeleton none).1 = emptySkeleton
    ∧ (fileSkeleton none).1.fGraphVerts = []
    ∧ (fileSkeleton none).1.fPrevV = []
    ∧ (fileSkeleton none).1.jointNames = []
    ∧ (fileSkeleton none).1.fcMapV = []
    ∧ (fileSkeleton none).1.cfMapV = []
    ∧ (fileSkeleton none).1.cPrevV = []
    ∧ (fileSkeleton none).1.cLengthV = []
    ∧ (fileSkeleton none).2 = ["Error opening file"] :=
  ⟨rfl, rfl, rfl, rfl, rfl, rfl, rfl, rfl, rfl⟩

lemma makeJoint_fGraphVerts (s : Skeleton) (nm : String) (pos : PVector3)
    (prev : String) :
    (makeJoint s nm pos prev).fGraphVerts = s.fGraphVerts ++ [pos.smul 0.5] := by
  simp only [makeJoint]
  by_cases h : prev = ""
  · rw [if_pos h]
  · rw [if_neg h]

lemma smul_two_half (v : PVector3) : (v.smul 2).smul 0.5 = v := by
  cases v with
  | mk x y z =>
      unfold PVector3.smul
      simp only [PVector3.mk.injEq]
      refine ⟨by ring, by ring, by ring⟩

lemma fileFold_verts : ∀ (lines : List (Option SkelLine)) (acc : Skeleton),
    (lines.foldl fileStep acc).fGraphVerts
      = acc.fGraphVerts
        ++ (lines.filterMap id).map (fun L => (L.pt.smul 2).smul 0.5) := by
  intro lines
  induction lines with
  | nil =>
      intro acc
      simp
  | cons a t ih =>
      intro acc
      cases a with
      | none =>
          rw [List.foldl_cons]
          show (t.foldl fileStep acc).fGraphVerts = _
          rw [ih]
          simp [List.filterMap_cons]
      | some L =>
          rw [List.foldl_cons, ih]
          have hstep : (fileStep acc (some L)).fGraphVerts
              = acc.fGraphVerts ++ [(L.pt.smul 2).smul 0.5] :=
            makeJoint_fGraphVerts acc L.name (L.pt.smul 2) _
          rw [hstep]
          simp [List.filterMap_cons]

/-- C10: the two scalings cancel for file-driven skeletons — every
successfully parsed line's joint is stored at exactly the coordinates written
in the file (`FileSkeleton` passes `p * 2` and `makeJoint` stores the halved
position), while a direct `makeJoint` call — as used by the built-in
templates — stores its position argument at half scale. -/
theorem claim_C10 (lines : List (Option SkelLine)) :
    (fileSkeleton (some lines)).1.fGraphVerts
      = (lines.filterMap id).map (fun L => L.pt)
    ∧ ∀ (s : Skeleton) (nm prev : String) (pos : PVector3),
        (makeJoint s nm pos prev).fGraphVerts = s.fGraphVerts ++ [pos.smul 0.5] := by
  constructor
  · show (initCompressed (lines.foldl fileStep emptySkeleton)).fGraphVerts = _
    rw [initCompressed_fGraphVerts, fileFold_verts lines emptySkeleton]
    show [] ++ _ = _
    rw [List.nil_append]
    apply List.map_congr_left
    intro L _
    exact smul_two_half L.pt
  · intro s nm prev pos
    exact makeJoint_fGraphVerts s nm pos prev

/-! ## Claim C8: the ray/mesh intersection query

Modelled from the spec: `intersector.cpp` is not under `src/`; only the class
declaration (`intersector.h`) is. Following spec §4.2, the query projects the
probe point into the `(v1, v2)` basis, rejects points outside the bounding
rectangle, tests candidate triangles by projected 2D containment and a
ray-plane solve through the precomputed scaled normal (triangles parallel to
the direction are skipped), sorts the hits by the ray parameter along the
direction, and returns the hit points with the originating triangle indices
in the same order. Coordinates are exact rationals standing for the doubles. -/

structure QVec3 where
  x : ℚ
  y : ℚ
  z : ℚ

instance : Inhabited QVec3 := ⟨⟨0, 0, 0⟩⟩

structure QVec2 where
  x : ℚ
  y : ℚ

def qdot (a b : QVec3) : ℚ := a.x * b.x + a.y * b.y + a.z * b.z

def qsub (a b : QVec3) : QVec3 := ⟨a.x - b.x, a.y - b.y, a.z - b.z⟩

def qadd (a b : QVec3) : QVec3 := ⟨a.x + b.x, a.y + b.y, a.z + b.z⟩

def qsmul (a : QVec3) (c : ℚ) : QVec3 := ⟨a.x * c, a.y * c, a.z * c⟩

def qcross (a b : QVec3) : QVec3 :=
  ⟨a.y * b.z - a.z * b.y, a.z * b.x - a.x * b.z, a.x * b.y - a.y * b.x⟩

def cross2 (a b : QVec2) : ℚ := a.x * b.y - a.y * b.x

def qsub2 (a b : QVec2) : QVec2 := ⟨a.x - b.x, a.y - b.y⟩

structure QTri where
  p0 : QVec3
  p1 : QVec3
  p2 : QVec3

structure QRect where
  lox : ℚ
  loy : ℚ
  hix : ℚ
  hiy : ℚ

/-- Modelled from the spec: the state of `Intersector` per intersector.h and
spec §3/§4.2 — the query direction, the `(v1, v2)` projection basis, the 2D
bounding rectangle of the projected mesh, and the mesh triangles. The uniform
grid is an acceleration detail the spec declares contract-neutral (§9), so
candidates are simply all triangles. -/
structure Intersector where
  dir : QVec3
  v1 : QVec3
  v2 : QVec3
  bounds : QRect
  tris : List QTri

def proj (I : Intersector) (p : QVec3) : QVec2 := ⟨qdot p I.v1, qdot p I.v2⟩

/-- Points exactly on a rectangle edge count as inside (spec §4.2). -/
def inRect (r : QRect) (p : QVec2) : Bool :=
  decide (r.lox ≤ p.x) && decide (p.x ≤ r.hix)
    && decide (r.loy ≤ p.y) && decide (p.y ≤ r.hiy)

/-- Exact 2D point-in-triangle test on same-side signs. -/
def inTri2 (a b c p : QVec2) : Bool :=
  (decide (0 ≤ cross2 (qsub2 b a) (qsub2 p a))
      && decide (0 ≤ cross2 (qsub2 c b) (qsub2 p b))
      && decide (0 ≤ cross2 (qsub2 a c) (qsub2 p c)))
    || (decide (cross2 (qsub2 b a) (qsub2 p a) ≤ 0)
      && decide (cross2 (qsub2 c b) (qsub2 p b) ≤ 0)
      && decide (cross2 (qsub2 a c) (qsub2 p c) ≤ 0))

/-- Modelled from the spec: the hit test of one candidate triangle: projected
containment, then the ray parameter along `dir` from the scaled normal; a
triangle whose plane is parallel to the direction is skipped. Returns the ray
parameter, the 3D hit point, and the originating triangle index. -/
def triHit (I : Intersector) (pt : QVec3) (k : Nat) : Option (ℚ × QVec3 × Nat) :=
  (I.tris.get? k).bind fun t =>
      if inTri2 (proj I t.p0) (proj I t.p1) (proj I t.p2) (proj I pt) = true then
        if qdot (qcross (qsub t.p1 t.p0) (qsub t.p2 t.p0)) I.dir = 0 then none
        else
          some (qdot (qcross (qsub t.p1 t.p0) (qsub t.p2 t.p0)) (qsub t.p0 pt)
                  / qdot (qcross (qsub t.p1 t.p0) (qsub t.p2 t.p0)) I.dir,
                qadd pt (qsmul I.dir
                  (qdot (qcross (qsub t.p1 t.p0) (qsub t.p2 t.p0)) (qsub t.p0 pt)
                    / qdot (qcross (qsub t.p1 t.p0) (qsub t.p2 t.p0)) I.dir)),
                k)
      else none

/-- Modelled from the spec: `Intersector::intersect(pt, outIndices)` — empty
result outside the bounding rectangle, otherwise all valid hits sorted
near-to-far by the ray parameter, with the triangle indices in the same
order (the `outIndices` output is the second component). -/
def intersect (I : Intersector) (pt : QVec3) : List QVec3 × List Nat :=
  if inRect I.bounds (proj I pt) = false then ([], [])
  else
    ((((List.range I.tris.length).filterMap (triHit I pt)).mergeSort
        (fun a b => decide (a.1 ≤ b.1))).map (fun h => h.2.1),
     (((List.range I.tris.length).filterMap (triHit I pt)).mergeSort
        (fun a b => decide (a.1 ≤ b.1))).map (fun h => h.2.2))

lemma triHit_shape (I : Intersector) (pt : QVec3) (k : Nat) (s : ℚ) (p : QVec3)
    (k2 : Nat) (h : triHit I pt k = some (s, p, k2)) :
    k2 = k ∧ p = qadd pt (qsmul I.dir s) := by
  unfold triHit at h
  rcases hget : I.tris.get? k with - | t
  · rw [hget] at h
    cases h
  · rw [hget, Option.some_bind] at h
    by_cases hin : inTri2 (proj I t.p0) (proj I t.p1) (proj I t.p2) (proj I pt) = true
    · rw [if_pos hin] at h
      by_cases hden : qdot (qcross (qsub t.p1 t.p0) (qsub t.p2 t.p0)) I.dir = 0
      · rw [if_pos hden] at h
        cases h
      · rw [if_neg hden] at h
        injection h with h1
        injection h1 with ha hb
        injection hb with hb1 hb2
        exact ⟨hb2.symm, by rw [← hb1, ← ha]⟩
    · rw [if_neg hin] at h
      cases h

lemma qdist_eq (d pt : QVec3) (s : ℚ) :
    qdot (qsub (qadd pt (qsmul d s)) pt) d = s * qdot d d := by
  unfold qdot qsub qadd qsmul
  ring

lemma qdot_self_nonneg (d : QVec3) : 0 ≤ qdot d d := by
  unfold qdot
  nlinarith [sq_nonneg d.x, sq_nonneg d.y, sq_nonneg d.z]

/-- The property claim C8 asserts of the query: the returned points are
sorted by signed distance along the direction from the probe point, and the
returned index list pairs each point with the triangle whose hit test
produced it, in the same order. -/
def C8Concl (I : Intersector) (pt : QVec3) : Prop :=
  (intersect I pt).1.Pairwise
      (fun p q => qdot (qsub p pt) I.dir ≤ qdot (qsub q pt) I.dir)
  ∧ (intersect I pt).2.length = (intersect I pt).1.length
  ∧ ∀ k, k < (intersect I pt).1.length →
      ∃ s : ℚ, triHit I pt ((intersect I pt).2.getD k 0)
        = some (s, (intersect I pt).1.getD k default, (intersect I pt).2.getD k 0)

/-- C8: intersection points come back sorted near-to-far along the query
direction, and `outIndices` carries the originating triangle of each point in
the same order. -/
theorem claim_C8 (I : Intersector) (pt : QVec3) : C8Concl I pt := by
  unfold C8Concl intersect
  by_cases hrect : inRect I.bounds (proj I pt) = false
  · rw [if_pos hrect]
    refine ⟨List.Pairwise.nil, rfl, fun k hk => absurd hk (by simp)⟩
  · rw [if_neg hrect]
    simp only
    set L := (List.range I.tris.length).filterMap (triHit I pt) with hL
    set S := L.mergeSort (fun a b => decide (a.1 ≤ b.1)) with hS
    have hmemS : ∀ a ∈ S, ∃ k, triHit I pt k = some a := by
      intro a haS
      have haL : a ∈ L := by
        rw [hS] at haS
        exact List.mem_mergeSort.mp haS
      rw [hL] at haL
      rcases List.mem_filterMap.mp haL with ⟨k, -, hk⟩
      exact ⟨k, hk⟩
    have hsorted : S.Pairwise (fun a b : ℚ × QVec3 × Nat => decide (a.1 ≤ b.1) = true) := by
      rw [hS]
      apply List.sorted_mergeSort
      · intro a b c hab hbc
        simp only [decide_eq_true_eq] at *
        exact le_trans hab hbc
      · intro a b
        simp only [Bool.or_eq_true, decide_eq_true_eq]
        exact le_total a.1 b.1
    refine ⟨?_, by rw [List.length_map, List.length_map], ?_⟩
    · rw [List.pairwise_map]
      apply hsorted.imp_of_mem
      intro a b haS hbS hab
      simp only [decide_eq_true_eq] at hab
      obtain ⟨ka, hka⟩ := hmemS a haS
      obtain ⟨kb, hkb⟩ := hmemS b hbS
      obtain ⟨-, hpa⟩ := triHit_shape I pt ka a.1 a.2.1 a.2.2 (by
        rw [hka])
      obtain ⟨-, hpb⟩ := triHit_shape I pt kb b.1 b.2.1 b.2.2 (by
        rw [hkb])
      rw [hpa, hpb, qdist_eq, qdist_eq]
      exact mul_le_mul_of_nonneg_right hab (qdot_self_nonneg I.dir)
    · intro k hk
      rw [List.length_map] at hk
      have hgetp : (S.map (fun h => h.2.1)).getD k default = (S.getD k default).2.1 := by
        rw [List.getD_eq_getElem?_getD, List.getD_eq_getElem?_getD,
          List.getElem?_map, List.getElem?_eq_getElem hk]
        rfl
      have hgeti : (S.map (fun h => h.2.2)).getD k 0 = (S.getD k default).2.2 := by
        rw [List.getD_eq_getElem?_getD, List.getD_eq_getElem?_getD,
          List.getElem?_map, List.getElem?_eq_getElem hk]
        rfl
      rw [hgetp, hgeti]
      have hmem : S.getD k default ∈ S := by
        rw [List.getD_eq_getElem?_getD, List.getElem?_eq_getElem hk]
        exact List.getElem_mem hk
      obtain ⟨k0, hk0⟩ := hmemS _ hmem
      obtain ⟨hkk, -⟩ := triHit_shape I pt k0 (S.getD k default).1
        (S.getD k default).2.1 (S.getD k default).2.2 (by rw [hk0])
      refine ⟨(S.getD k default).1, ?_⟩
      show triHit I pt ((S.getD k default).2.2) = some (S.getD k default)
      rw [hkk]
      exact hk0

end Pinocchio
